import Mathlib

/-!
Shallow embedding of `gaphor/codegen/coder.py`, the code generator for Gaphor
modeling languages, together with proofs about the properties claimed in its
specification.

Classes and packages of a loaded model live in a `Repo` and are referenced by
their position (a `Nat` id), which plays the role of Python object identity.
Functions that recurse through the (assumed acyclic) generalization graph take
explicit fuel; the Python originals recurse unboundedly.  Fallible code paths
(`raise`, failing `assert`, out-of-bounds indexing) are modelled with `Except`.
-/

namespace Coder

/-- Rendering of an optional string the way a Python f-string renders it
(`None` for a missing value). -/
def pyStr (o : Option String) : String := o.getD "None"

/-- Python truthiness of an optional string (`None` and `""` are falsy). -/
def truthyName : Option String → Bool
  | none => false
  | some s => s != ""

/-- Kernel-computable "does `l` start with `p`" on character lists (the
byte-position-based `String` functions do not reduce in the kernel). -/
def listStartsWith : List Char → List Char → Bool
  | _, [] => true
  | [], _ :: _ => false
  | a :: as, b :: bs => a == b && listStartsWith as bs

/-- Python's `str.startswith` over code points. -/
def strStartsWith (s p : String) : Bool := listStartsWith s.data p.data

/-- Python's `str.endswith` over code points. -/
def strEndsWith (s p : String) : Bool := listStartsWith s.data.reverse p.data.reverse

/-- Lexicographic code-point comparison of character lists, as Python compares
strings. -/
def charListLe : List Char → List Char → Bool
  | [], _ => true
  | _ :: _, [] => false
  | a :: as, b :: bs =>
    if a.toNat = b.toNat then charListLe as bs else decide (a.toNat < b.toNat)

/-- Python's `s <= t` on strings (code-point lexicographic). -/
def strLe (s t : String) : Bool := charListLe s.data t.data

/-- Python's `str.split(sep)` for a one-character separator, over character
lists (`"".split(sep)` is `[""]`). -/
def splitOnChar (sep : Char) : List Char → List (List Char)
  | [] => [[]]
  | c :: rest =>
    let r := splitOnChar sep rest
    if c == sep then [] :: r
    else
      match r with
      | [] => [[c]]
      | h :: t => (c :: h) :: t

/-- Python's `str.split(sep)` for a one-character separator. -/
def pySplit (sep : Char) (s : String) : List String :=
  (splitOnChar sep s.data).map String.mk

/-- The whitespace characters Python's `str.strip()` removes (ASCII). -/
def pyIsSpace (c : Char) : Bool :=
  c == ' ' || c == '\t' || c == '\n' || c == '\r' || c == '\x0b' || c == '\x0c'

/-- Python's `str.strip()`. -/
def pyStrip (s : String) : String :=
  String.mk (((s.data.dropWhile pyIsSpace).reverse.dropWhile pyIsSpace).reverse)

/-- A generalization edge; `general` is the id of the base class. -/
structure Generalization where
  general : Nat
deriving DecidableEq, Repr

/-- Value stored in a stereotype application slot: a Python `str`, or some
other object together with its string rendering. -/
inductive SlotV where
  | str (s : String)
  | other (rendered : String)
deriving DecidableEq, Repr

/-- A stereotype application slot; `definingFeature` is the name of the slot's
defining feature (`slot.definingFeature.name` in the source). -/
structure Slot where
  definingFeature : Option String
  value : Option SlotV
deriving DecidableEq, Repr

/-- The opposite association end, flattened to the two facts the source reads:
its name and whether its `class_` is set. -/
structure Opp where
  name : Option String
  hasClass : Bool
deriving DecidableEq, Repr

/-- An association end (`association.ownedEnd`), flattened to its `class_`. -/
structure AssocEnd where
  class_ : Option Nat
deriving DecidableEq, Repr

/-- An association; `isExtension` models `isinstance(a.association, UML.Extension)`. -/
structure Association where
  isExtension : Bool
  ownedEnd : Option AssocEnd
deriving DecidableEq, Repr

/-- A default value: one of the four literal-specification kinds the source
tests with `isinstance`, or a raw (plain string) value.  A literal element
carries both its value rendered as a string (`s`, what
`get_literal_value_as_string` returns) and the `str()` rendering of the
literal element object itself (`objStr`, what an f-string interpolates when
the source passes the object through unconverted). -/
inductive Literal where
  | str (s objStr : String)
  | int (s objStr : String)
  | un (s objStr : String)
  | bool (s objStr : String)
  | raw (s : String)
deriving DecidableEq, Repr

/-- Whether the default value is one of the four literal-specification
element kinds (as opposed to a raw string). -/
def Literal.isElem : Literal → Bool
  | .raw _ => false
  | _ => true

/-- The `str()` rendering of a default value in an f-string: the object
rendering for a literal element, the string itself for a raw value. -/
def pyReprLiteral : Literal → String
  | .str _ os => os
  | .int _ os => os
  | .un _ os => os
  | .bool _ os => os
  | .raw s => s

/-- Value of a `LiteralUnlimitedNatural`: `*` or a number. -/
inductive UNVal where
  | star
  | num (n : Nat)
deriving DecidableEq, Repr

/-- A lower multiplicity bound: a `LiteralInteger` or a raw value. -/
inductive LowerV where
  | litInt (v : Option Int)
  | raw (s : String)
deriving DecidableEq, Repr

/-- An upper multiplicity bound: a `LiteralUnlimitedNatural` or a raw value. -/
inductive UpperV where
  | litUN (v : Option UNVal)
  | raw (s : String)
deriving DecidableEq, Repr

/-- An operation, of which the source only reads the name. -/
structure Operation where
  name : Option String
deriving DecidableEq, Repr

/-- A property (attribute / association end).  `type` and `owner` are class
ids; `stereotypeSlots` is the flattened `a.appliedStereotype[:].slot`
collection. -/
structure Property where
  name : Option String
  typeValue : Option String
  type : Option Nat
  isDerived : Bool
  association : Option Association
  stereotypeSlots : List Slot
  defaultValue : Option Literal
  lowerValue : Option LowerV
  upperValue : Option UpperV
  aggregation : Option String
  opposite : Option Opp
  owner : Option Nat
deriving DecidableEq, Repr

/-- A property with every field unset; concrete models override the fields
they need. -/
def emptyProperty : Property :=
  { name := none, typeValue := none, type := none, isDerived := false,
    association := none, stereotypeSlots := [], defaultValue := none,
    lowerValue := none, upperValue := none, aggregation := none,
    opposite := none, owner := none }

/-- A UML class.  `appliedStereotypes` holds the names of the stereotypes
applied to the class (what `UML.recipes.get_applied_stereotypes` yields). -/
structure Class where
  name : Option String
  ownedAttribute : List Property
  ownedOperation : List Operation
  generalization : List Generalization
  appliedStereotypes : List (Option String)
  owningPackage : Option Nat
deriving DecidableEq, Repr

/-- A class with every field unset. -/
def emptyClass : Class :=
  { name := none, ownedAttribute := [], ownedOperation := [],
    generalization := [], appliedStereotypes := [], owningPackage := none }

/-- A package; `isProfile` models `isinstance(p, UML.Profile)`. -/
structure Package where
  owningPackage : Option Nat
  isProfile : Bool
deriving DecidableEq, Repr

/-- A loaded model (the `ElementFactory` contents the generator reads):
classes and packages referenced by position. -/
structure Repo where
  classes : List Class
  packages : List Package
deriving DecidableEq, Repr

/-- Dereference a class id. -/
def getC (r : Repo) (i : Nat) : Option Class := r.classes[i]?

/-- Direct bases of a class object: the `general` of each generalization,
then the class at the owned end of the association of each attribute named
`baseClass` (source `bases`). -/
def basesC (c : Class) : List Nat :=
  c.generalization.map (fun g => g.general) ++
    c.ownedAttribute.filterMap (fun a =>
      match a.association with
      | some asc => if a.name = some "baseClass" then asc.ownedEnd.bind (fun e => e.class_) else none
      | none => none)

/-- Direct bases of the class with id `i` (source `bases`, by id). -/
def bases (r : Repo) (i : Nat) : List Nat :=
  match getC r i with
  | some c => basesC c
  | none => []

/-- Source `is_enumeration` on a class object: the name ends with `Kind` or
`Sort`. -/
def is_enumerationC (c : Class) : Bool :=
  match c.name with
  | some n => strEndsWith n "Kind" || strEndsWith n "Sort"
  | none => false

/-- Source `is_enumeration` applied to an attribute's (optional) type. -/
def is_enumeration (r : Repo) (t : Option Nat) : Bool :=
  match t.bind (getC r) with
  | some c => is_enumerationC c
  | none => false

/-- Source `is_tilde_type`: the class name starts with `~`. -/
def is_tilde_typeC (c : Class) : Bool :=
  match c.name with
  | some n => strStartsWith n "~"
  | none => false

/-- Source `is_simple_type`, fuelled: the class carries the `SimpleAttribute`
stereotype or some transitive base does. -/
def is_simple_typeFuel (r : Repo) : Nat → Option Nat → Bool
  | 0, _ => false
  | fuel + 1, t =>
    match t.bind (getC r) with
    | some c =>
        c.appliedStereotypes.any (fun s => s == some "SimpleAttribute") ||
          c.generalization.any (fun g => is_simple_typeFuel r fuel (some g.general))
    | none => false

/-- Source `is_simple_type` with enough fuel for any acyclic model. -/
def is_simple_type (r : Repo) (t : Option Nat) : Bool :=
  is_simple_typeFuel r (r.classes.length + 1) t

/-- Source `is_extension_end`: the owning association is an extension. -/
def is_extension_end (a : Property) : Bool :=
  match a.association with
  | some asc => asc.isExtension
  | none => false

/-- Source `is_in_profile`, fuelled walk up the `owningPackage` chain. -/
def is_in_profileFuel (r : Repo) : Nat → Option Nat → Bool
  | 0, _ => false
  | _ + 1, none => false
  | fuel + 1, some pid =>
    match r.packages[pid]? with
    | some p => p.isProfile || (p.owningPackage.isSome && is_in_profileFuel r fuel p.owningPackage)
    | none => false

/-- Fatal outcomes of the generator: `raise ValueError`, a failing `assert`,
an out-of-bounds index, an attribute access on `None`. -/
inductive VErr where
  | valueError (msg : String)
  | indexError
  | assertError
  | attributeError
deriving DecidableEq, Repr

/-- Source `is_in_profile` with enough fuel for any acyclic package tree.
The top-level `test(c.owningPackage)` dereferences the package unguarded, so
a class with no owning package raises `AttributeError`; only the recursive
step is guarded by `p.owningPackage and`. -/
def is_in_profile (r : Repo) (c : Class) : Except VErr Bool :=
  match c.owningPackage with
  | none => .error .attributeError
  | some pid => .ok (is_in_profileFuel r (r.packages.length + 1) (some pid))

/-- Inner `test` of source `is_reassignment`, fuelled: class `i` or one of its
transitive bases owns an attribute named `aname`. -/
def is_reassignmentFuel (r : Repo) (aname : Option String) : Nat → Nat → Bool
  | 0, _ => false
  | fuel + 1, i =>
    match getC r i with
    | some c =>
        c.ownedAttribute.any (fun attr => attr.name == aname) ||
          (basesC c).any (fun b => is_reassignmentFuel r aname fuel b)
    | none => false

/-- Source `is_reassignment`: some base of the attribute's owner (or a base of
a base, and so on) declares an attribute of the same name. -/
def is_reassignment (r : Repo) (a : Property) : Bool :=
  match a.owner.bind (getC r) with
  | some oc => (basesC oc).any (fun b => is_reassignmentFuel r a.name (r.classes.length + 1) b)
  | none => false

/-- Modelled from the spec: `UML.recipes.get_multiplicity_upper_value_as_string`
is not among the given sources; per the spec it renders the attribute's upper
multiplicity bound as a string (`"1"` marks a singular relation, `"*"` an
unbounded one). -/
def get_multiplicity_upper_value_as_string (a : Property) : String :=
  match a.upperValue with
  | some (.litUN (some .star)) => "*"
  | some (.litUN (some (.num n))) => toString n
  | some (.litUN none) => "None"
  | some (.raw s) => s
  | none => "None"

/-- Modelled from the spec: `UML.recipes.get_literal_value_as_string` is not
among the given sources; it renders a literal specification's value as a
string (literals here carry that rendering). -/
def get_literal_value_as_string : Literal → String
  | .str s _ => s
  | .int s _ => s
  | .un s _ => s
  | .bool s _ => s
  | .raw s => s

/-- Modelled from the spec: `UML.recipes.get_slot_value` is not among the
given sources; it returns the value carried by a stereotype application
slot. -/
def get_slot_value (s : Slot) : Option SlotV := s.value

/-- Modelled from the spec: the override table (`gaphor/codegen/override.py`
is not among the given sources) maps a `ClassName` or `ClassName.member` key
to literal replacement text and a type text, plus an optional header
override. -/
structure Overrides where
  table : List (String × String × String)
  header : Option String

/-- Source `overrides and overrides.has_override(name)`. -/
def has_override (ov : Option Overrides) (name : Option String) : Bool :=
  match ov, name with
  | some o, some n => (o.table.find? (fun e => e.1 == n)).isSome
  | _, _ => false

/-- Source `overrides.get_override(name)` (the source only calls it after a
successful `has_override`). -/
def get_override (ov : Option Overrides) (name : Option String) : String :=
  match ov, name with
  | some o, some n =>
    match o.table.find? (fun e => e.1 == n) with
    | some e => e.2.1
    | none => ""
  | _, _ => ""

/-- Source `overrides.get_type(name)`. -/
def get_type (ov : Option Overrides) (name : Option String) : String :=
  match ov, name with
  | some o, some n =>
    match o.table.find? (fun e => e.1 == n) with
    | some e => e.2.2
    | none => ""
  | _, _ => ""

/-- Stable insertion used by `sortByKey`: an element goes before the first
element with a strictly larger key, and after equal keys. -/
def insertByKey {α : Type} (key : α → String) (x : α) : List α → List α
  | [] => [x]
  | y :: ys => if strLe (key x) (key y) then x :: y :: ys else y :: insertByKey key x ys

/-- Python's stable `sorted(..., key=...)` for string keys. -/
def sortByKey {α : Type} (key : α → String) : List α → List α
  | [] => []
  | x :: xs => insertByKey key x (sortByKey key xs)

/-- Python's `str.title()` (ASCII letters). -/
def pyTitleAux : Bool → List Char → List Char
  | _, [] => []
  | prev, ch :: rest =>
      (if ch.isAlpha then (if prev then ch.toLower else ch.toUpper) else ch) ::
        pyTitleAux ch.isAlpha rest

/-- Python's `str.title()` on a string. -/
def pyTitle (s : String) : String := String.mk (pyTitleAux false s.data)

/-- Python truthiness of `a.defaultValue` (`None` and `""` are falsy, literal
specification objects are truthy). -/
def truthyDefault : Option Literal → Bool
  | none => false
  | some (.raw s) => s != ""
  | some _ => true

/-- The `true`/`false` to `True`/`False` normalization applied at the end of
the `bool` branch of source `default_value`. -/
def boolNorm (s : String) : String :=
  if s = "true" then "True" else if s = "false" then "False" else s

/-- Source `default_value`: renders `, default=<v>` for a truthy default and
raises `ValueError` when `typeValue` is none of `int`, `str`, `bool`.  In the
`bool` branch only `LiteralBoolean` and `LiteralString` go through
`get_literal_value_as_string`; any other literal element is kept as the
object, compares unequal to the strings `true`/`false`, and is interpolated
into the line as the object's own rendering. -/
def default_value (r : Repo) (a : Property) : Except VErr String :=
  if truthyDefault a.defaultValue then
    match a.defaultValue with
    | none => .ok ""
    | some dv =>
      if a.typeValue = some "int" then
        match dv with
        | .str s _ | .int s _ | .un s _ | .bool s _ => .ok (", default=" ++ s)
        | .raw s => .ok (", default=" ++ pyTitle s)
      else if a.typeValue = some "str" then
        match dv with
        | .str s _ | .int s _ | .un s _ | .bool s _ => .ok (", default=" ++ s)
        | .raw s => .ok (", default=\"" ++ s ++ "\"")
      else if a.typeValue = some "bool" then
        match dv with
        | .bool s _ | .str s _ => .ok (", default=" ++ boolNorm s)
        | .raw s => .ok (", default=" ++ boolNorm s)
        | .int _ os | .un _ os => .ok (", default=" ++ os)
      else
        match a.owner.bind (getC r) with
        | some oc =>
            .error (.valueError ("Unknown default value type: " ++ pyStr oc.name ++ "." ++
              pyStr a.name ++ ": " ++ pyStr a.typeValue ++ " = " ++
              pyReprLiteral dv))
        | none => .error .attributeError
  else .ok ""

/-- Source `lower`: renders `, lower=<v>` unless the bound is absent or 0. -/
def lower (a : Property) : String :=
  let lowerValue :=
    match a.lowerValue with
    | some (.litInt (some n)) => if n ≠ 0 then toString n else ""
    | some (.litInt none) => ""
    | some (.raw s) => if s ≠ "0" then s else ""
    | none => ""
  if lowerValue = "" then "" else ", lower=" ++ lowerValue

/-- Source `upper`: renders `, upper=<v>` unless the bound is absent, 0 or
unbounded (`*`). -/
def upper (a : Property) : String :=
  let upperValue :=
    match a.upperValue with
    | some (.litUN (some (.num n))) => if n ≠ 0 then toString n else ""
    | some (.litUN (some .star)) => ""
    | some (.litUN none) => ""
    | some (.raw s) => if s ≠ "*" then s else ""
    | none => ""
  if upperValue = "" then "" else ", upper=" ++ upperValue

/-- Source `composite`. -/
def composite (a : Property) : String :=
  if a.aggregation = some "composite" then ", composite=True" else ""

/-- Source `opposite`: emitted only when the opposite end exists, has a truthy
name and has a class. -/
def opposite (a : Property) : String :=
  match a.opposite with
  | some o =>
    match o.name with
    | some n => if n != "" && o.hasClass then ", opposite=\"" ++ n ++ "\"" else ""
    | none => ""
  | none => ""

/-- Rendering of a slot value in an f-string. -/
def renderSlotV : SlotV → String
  | .str s => s
  | .other s => s

/-- Source `redefines`: the value of the first slot whose defining feature is
named `redefines`. -/
def redefines (a : Property) : Option SlotV :=
  match a.stereotypeSlots.find? (fun slot => slot.definingFeature == some "redefines") with
  | some slot => get_slot_value slot
  | none => none

/-- Python truthiness of a slot value (an empty string is falsy). -/
def truthySlotV : Option SlotV → Bool
  | none => false
  | some (.str s) => s != ""
  | some (.other _) => true

/-- The iteration of source `order_classes` over a list of classes: each class
is visited with the `seen` set extended by everything emitted so far. -/
def orderGo (visit : Nat → List Nat → List Nat) : List Nat → List Nat → List Nat
  | [], _ => []
  | c :: rest, seen =>
    visit c seen ++ orderGo visit rest (seen ++ visit c seen)

/-- Source `order_classes`' recursive `order`: visiting a class not yet seen
first emits its bases recursively, then the class itself; a class already
seen (`seen` always extends to everything emitted) yields nothing.  Fuel
bounds the recursion depth, which the Python original leaves unbounded (the
generalization graph is assumed acyclic). -/
def orderVisit (r : Repo) : Nat → Nat → List Nat → List Nat
  | 0, _, _ => []
  | fuel + 1, c, seen =>
    if c ∈ seen then []
    else orderGo (orderVisit r fuel) (bases r c) seen ++ [c]

/-- Source `order_classes` on an input list of class ids. -/
def order_classes (r : Repo) (fuel : Nat) (cs : List Nat) : List Nat :=
  orderGo (orderVisit r fuel) cs []

/-- Fuel sufficient for any acyclic model: one more than the longest possible
base chain. -/
def classFuel (r : Repo) : Nat := r.classes.length + 2

/-- Source `class_declaration`: `class <Name>(<base names sorted by name>):`. -/
def class_declaration (r : Repo) (i : Nat) : String :=
  match getC r i with
  | some c =>
    let bs := (bases r i).filterMap (getC r)
    let sorted := sortByKey (fun b => b.name.getD "") bs
    "class " ++ pyStr c.name ++ "(" ++
      String.intercalate ", " (sorted.map (fun b => pyStr b.name)) ++ "):"
  | none => ""

/-- Python truthiness of `a.typeValue`. -/
def truthyTV : Option String → Bool
  | none => false
  | some s => s != ""

/-- Name of an attribute's type class, as rendered in an f-string. -/
def typeName (r : Repo) (a : Property) : String :=
  match a.type.bind (getC r) with
  | some t => pyStr t.name
  | none => "None"

/-- The `", ".join(f'"{e.name}"' ...)` rendering of an enumeration's owned
literals. -/
def enumLiterals (t : Class) : String :=
  String.intercalate ", " (t.ownedAttribute.map (fun e => "\"" ++ pyStr e.name ++ "\""))

/-- Attribute loop of source `variables`, over the name-sorted attributes. -/
def variablesAttrs (r : Repo) (c : Class) (ov : Option Overrides) :
    List Property → Except VErr (List String)
  | [] => .ok []
  | a :: rest =>
    if is_extension_end a then variablesAttrs r c ov rest
    else
      let full := pyStr c.name ++ "." ++ pyStr a.name
      if has_override ov (some full) then
        match variablesAttrs r c ov rest with
        | .error e => .error e
        | .ok ls => .ok ((pyStr a.name ++ ": " ++ get_type ov (some full)) :: ls)
      else if a.isDerived && a.type.isNone then
        variablesAttrs r c ov rest
      else if truthyTV a.typeValue then
        match default_value r a with
        | .error e => .error e
        | .ok dv =>
          match variablesAttrs r c ov rest with
          | .error e => .error e
          | .ok ls =>
            .ok ((pyStr a.name ++ ": _attribute[" ++ pyStr a.typeValue ++
              "] = _attribute(\"" ++ pyStr a.name ++ "\", " ++ pyStr a.typeValue ++
              dv ++ ")") :: ls)
      else if is_enumeration r a.type then
        match a.type.bind (getC r) with
        | some t =>
          match t.ownedAttribute[0]? with
          | some firstLit =>
            match variablesAttrs r c ov rest with
            | .error e => .error e
            | .ok ls =>
              .ok ((pyStr a.name ++ " = _enumeration(\"" ++ pyStr a.name ++ "\", (" ++
                enumLiterals t ++ "), \"" ++ pyStr firstLit.name ++ "\")") :: ls)
          | none => .error .indexError
        | none => .error .assertError
      else if a.type.isSome then
        let mult := if get_multiplicity_upper_value_as_string a = "1" then "one" else "many"
        let comment := if is_reassignment r a then "  # type: ignore[assignment]" else ""
        match variablesAttrs r c ov rest with
        | .error e => .error e
        | .ok ls =>
          .ok ((pyStr a.name ++ ": relation_" ++ mult ++ "[" ++ typeName r a ++ "]" ++
            comment) :: ls)
      else
        match a.owner.bind (getC r) with
        | some oc =>
          .error (.valueError (pyStr a.name ++ ": None can not be written; owner=" ++
            pyStr oc.name))
        | none => .error .assertError

/-- Operation loop of source `variables` (yields only overridden operations). -/
def variablesOps (c : Class) (ov : Option Overrides) : List Operation → List String
  | [] => []
  | o :: rest =>
    let full := pyStr c.name ++ "." ++ pyStr o.name
    if has_override ov (some full) then
      (pyStr o.name ++ ": " ++ get_type ov (some full)) :: variablesOps c ov rest
    else variablesOps c ov rest

/-- Source `variables` (as `variablesF`; `variables` is reserved in Lean): the lines of a class body (attributes then overridden
operations), each loop running over the name-sorted collection. -/
def variablesF (r : Repo) (c : Class) (ov : Option Overrides) : Except VErr (List String) :=
  match variablesAttrs r c ov (sortByKey (fun a => a.name.getD "") c.ownedAttribute) with
  | .error e => .error e
  | .ok ls => .ok (ls ++ variablesOps c ov (sortByKey (fun o => o.name.getD "") c.ownedOperation))

/-- Source `operations` (second pass): overridden operations only. -/
def operationsGo (c : Class) (ov : Option Overrides) : List Operation → List String
  | [] => []
  | o :: rest =>
    let full := pyStr c.name ++ "." ++ pyStr o.name
    if has_override ov (some full) then get_override ov (some full) :: operationsGo c ov rest
    else operationsGo c ov rest

/-- Source `operations`. -/
def operations (c : Class) (ov : Option Overrides) : List String :=
  operationsGo c ov (sortByKey (fun o => o.name.getD "") c.ownedOperation)

/-- The `f"{c.name}.{a.name}"` key of an attribute. -/
def assocFullName (c : Class) (a : Property) : String :=
  pyStr c.name ++ "." ++ pyStr a.name

/-- The skip condition of the association and subsets passes: no type, simple
type, enumeration or extension end. -/
def assocSkip (r : Repo) (a : Property) : Bool :=
  a.type.isNone || is_simple_type r a.type || is_enumeration r a.type || is_extension_end a

/-- The redefinition-binding line of source `associations`. -/
def redefLineOf (r : Repo) (c : Class) (a : Property) : String :=
  assocFullName c a ++ " = redefine(" ++ pyStr c.name ++ ", \"" ++ pyStr a.name ++ "\", " ++
    typeName r a ++ ", " ++
    (match redefines a with
     | some v => renderSlotV v
     | none => "None") ++ opposite a ++ ")"

/-- The derived-union line of source `associations`. -/
def derivedLineOf (r : Repo) (c : Class) (a : Property) : String :=
  assocFullName c a ++ " = derivedunion(\"" ++ pyStr a.name ++ "\", " ++ typeName r a ++
    lower a ++ upper a ++ ")"

/-- The plain association line of source `associations`. -/
def assocLineOf (r : Repo) (c : Class) (a : Property) : String :=
  assocFullName c a ++ " = association(\"" ++ pyStr a.name ++ "\", " ++ typeName r a ++
    lower a ++ upper a ++ composite a ++ opposite a ++ ")"

/-- Source `associations`: ordinary lines are yielded as encountered,
redefinition lines are collected in `redefs` and yielded after the loop; an
unnamed plain association raises `ValueError`. -/
def associationsAux (r : Repo) (c : Class) (ov : Option Overrides) :
    List Property → List String → Except VErr (List String)
  | [], redefs => .ok redefs
  | a :: rest, redefs =>
    let full := assocFullName c a
    if has_override ov (some full) then
      match associationsAux r c ov rest redefs with
      | .error e => .error e
      | .ok ls => .ok (get_override ov (some full) :: ls)
    else if assocSkip r a then
      associationsAux r c ov rest redefs
    else if truthySlotV (redefines a) then
      associationsAux r c ov rest (redefs ++ [redefLineOf r c a])
    else if a.isDerived then
      match associationsAux r c ov rest redefs with
      | .error e => .error e
      | .ok ls => .ok (derivedLineOf r c a :: ls)
    else if !truthyName a.name then
      .error (.valueError ("Unnamed attribute: " ++ full))
    else
      match associationsAux r c ov rest redefs with
      | .error e => .error e
      | .ok ls => .ok (assocLineOf r c a :: ls)

/-- Source `associations` on a class. -/
def associations (r : Repo) (c : Class) (ov : Option Overrides) : Except VErr (List String) :=
  associationsAux r c ov c.ownedAttribute []

/-- Spec-side description of the ordinary (non-redefinition) line an attribute
contributes to the association pass: an override, derived-union or plain
association line, or nothing. -/
def ordinaryLineOf (r : Repo) (c : Class) (ov : Option Overrides) (a : Property) :
    Option String :=
  let full := assocFullName c a
  if has_override ov (some full) then some (get_override ov (some full))
  else if assocSkip r a then none
  else if truthySlotV (redefines a) then none
  else if a.isDerived then some (derivedLineOf r c a)
  else if !truthyName a.name then none
  else some (assocLineOf r c a)

/-- Spec-side: all ordinary association-pass lines of a class, in attribute
order. -/
def ordinaryLines (r : Repo) (c : Class) (ov : Option Overrides) : List String :=
  c.ownedAttribute.filterMap (ordinaryLineOf r c ov)

/-- Spec-side description of the redefinition-binding line an attribute
contributes, if any. -/
def redefLineOnly (r : Repo) (c : Class) (ov : Option Overrides) (a : Property) :
    Option String :=
  let full := assocFullName c a
  if has_override ov (some full) then none
  else if assocSkip r a then none
  else if truthySlotV (redefines a) then some (redefLineOf r c a)
  else none

/-- Spec-side: all redefinition-binding lines of a class, in attribute
order. -/
def redefinitionLines (r : Repo) (c : Class) (ov : Option Overrides) : List String :=
  c.ownedAttribute.filterMap (redefLineOnly r c ov)

/-- A generated type a modeling language can resolve a class name to, with the
two fields the source reads (`__module__` and `__name__`). -/
structure ElementType where
  module_ : String
  name_ : String
deriving DecidableEq, Repr

/-- A super model: a modeling language (its `lookup_element`) paired with the
loaded factory. -/
structure SuperModel where
  lookup_element : String → Option ElementType
  factory : Repo

/-- The inner class loop of source `in_super_model` over one factory: for
each class of the matching name, `is_in_profile` is evaluated first (its
`AttributeError` propagates) and, when it returns false, `is_enumeration`
next; the first class passing both is returned. -/
def in_super_model_scan (smf : Repo) (name : Option String) :
    List Class → Except VErr (Option Class)
  | [] => .ok none
  | cls :: rest =>
    if cls.name == name then
      match is_in_profile smf cls with
      | .error e => .error e
      | .ok b =>
        if b || is_enumerationC cls then in_super_model_scan smf name rest
        else .ok (some cls)
    else in_super_model_scan smf name rest

/-- Source `in_super_model`: the first class of the same name in some super
model that is neither profile-internal nor an enumeration, with the generated
type its modeling language resolves the name to (a missing generated type is
a failing `assert`).  The class's home factory is returned alongside so that
ids inside it can be dereferenced. -/
def in_super_model (name : Option String) :
    List SuperModel → Except VErr (Option (ElementType × Class × Repo))
  | [] => .ok none
  | sm :: rest =>
    match in_super_model_scan sm.factory name sm.factory.classes with
    | .error e => .error e
    | .ok (some cls) =>
      match cls.name with
      | some n =>
        match sm.lookup_element n with
        | some et => .ok (some (et, cls, sm.factory))
        | none => .error .assertError
      | none => .error .assertError
    | .ok none => in_super_model name rest

/-- The base-class loop of source `attribute`, generic in the recursive
resolver: return the first base (in order) on which the feature resolves. -/
def attributeResGo
    (res : Class → Except VErr (Option ElementType × Option (Property × Repo)))
    (r : Repo) : List Nat → Except VErr (Option (Option ElementType × Option (Property × Repo)))
  | [] => .ok none
  | b :: rest =>
    match getC r b with
    | none => attributeResGo res r rest
    | some bc =>
      match res bc with
      | .error e => .error e
      | .ok (et, some d) => .ok (some (et, some d))
      | .ok (_, none) => attributeResGo res r rest

/-- Source `attribute`: resolve a feature name on a class, walking its own
attributes, then its bases, then the class of the same name in a super model.
The resolved property is returned with its home factory; the fuel bounds the
recursion depth, unbounded in Python. -/
def attributeRes (sms : List SuperModel) : Nat → Repo → Class → String →
    Except VErr (Option ElementType × Option (Property × Repo))
  | 0, _, _, _ => .ok (none, none)
  | fuel + 1, r, c, name =>
    match c.ownedAttribute.find? (fun a => a.name == some name) with
    | some a => .ok (none, some (a, r))
    | none =>
      match attributeResGo (fun bc => attributeRes sms fuel r bc name) r (basesC c) with
      | .error e => .error e
      | .ok (some res) => .ok res
      | .ok none =>
        match in_super_model c.name sms with
        | .error e => .error e
        | .ok (some (et, superClass, sr)) =>
          if c = superClass then .ok (none, none)
          else
            match attributeRes sms fuel sr superClass name with
            | .error e => .error e
            | .ok (_, a) => .ok (et, a)
        | .ok none => .ok (none, none)

/-- A warning logged by the subsets pass. -/
inductive SubWarn where
  | notDefined (full value : String)
  | notDerivedUnion (full value : String)
deriving DecidableEq, Repr

/-- The `d.owner.name` rendering of a resolved property within its home
factory. -/
def ownerNameOf (d : Property × Repo) : String :=
  match d.1.owner.bind (getC d.2) with
  | some oc => pyStr oc.name
  | none => "None"

/-- The comma-separated-values loop of source `subsets`: for each feature
name, resolve it; a resolved feature gets a registration line (preceded by
an import line when it lives in a super model), an unresolved one a warning.
The final `else` (the not-a-derived-union warning) mirrors the source's dead
branch: the `d.isDerived` test before it is commented out in the source. -/
def subsetsValues (sms : List SuperModel) (fuel : Nat) (r : Repo) (c : Class)
    (full : String) : List String → Except VErr (List String × List SubWarn)
  | [] => .ok ([], [])
  | v :: vs =>
    let value := pyStrip v
    match attributeRes sms fuel r c value with
    | .error e => .error e
    | .ok (et, d) =>
      match subsetsValues sms fuel r c full vs with
      | .error e => .error e
      | .ok (ls, ws) =>
        if h : d.isSome then
          let dd := d.get h
          let reg := ownerNameOf dd ++ "." ++ pyStr dd.1.name ++ ".add(" ++ full ++
            ")  # type: ignore[attr-defined]"
          let imp :=
            match et with
            | some e => ["from " ++ e.module_ ++ " import " ++ ownerNameOf dd]
            | none => []
          .ok (imp ++ reg :: ls, ws)
        else if d.isNone then
          .ok (ls, SubWarn.notDefined full value :: ws)
        else
          .ok (ls, SubWarn.notDerivedUnion full value :: ws)

/-- The slot loop of source `subsets`: only slots whose defining feature is
named `subsets` contribute; a non-string slot value is treated as `""`. -/
def subsetsSlots (sms : List SuperModel) (fuel : Nat) (r : Repo) (c : Class)
    (a : Property) : List Slot → Except VErr (List String × List SubWarn)
  | [] => .ok ([], [])
  | slot :: rest =>
    if slot.definingFeature == some "subsets" then
      let full := pyStr c.name ++ "." ++ pyStr a.name
      let slotValue :=
        match get_slot_value slot with
        | some (.str s) => s
        | _ => ""
      match subsetsValues sms fuel r c full (pySplit ',' slotValue) with
      | .error e => .error e
      | .ok (ls, ws) =>
        match subsetsSlots sms fuel r c a rest with
        | .error e => .error e
        | .ok (ls2, ws2) => .ok (ls ++ ls2, ws ++ ws2)
    else subsetsSlots sms fuel r c a rest

/-- The attribute loop of source `subsets`, with the same skip condition as
the association pass. -/
def subsetsAttrs (sms : List SuperModel) (fuel : Nat) (r : Repo) (c : Class) :
    List Property → Except VErr (List String × List SubWarn)
  | [] => .ok ([], [])
  | a :: rest =>
    if assocSkip r a then subsetsAttrs sms fuel r c rest
    else
      match subsetsSlots sms fuel r c a a.stereotypeSlots with
      | .error e => .error e
      | .ok (ls, ws) =>
        match subsetsAttrs sms fuel r c rest with
        | .error e => .error e
        | .ok (ls2, ws2) => .ok (ls ++ ls2, ws ++ ws2)

/-- Source `subsets` on a class, returning the yielded lines and the warnings
logged (the source signature is `subsets(c, super_models)`; the repo and the
resolution fuel are explicit here). -/
def subsets (r : Repo) (sms : List SuperModel) (fuel : Nat) (c : Class) :
    Except VErr (List String × List SubWarn) :=
  subsetsAttrs sms fuel r c c.ownedAttribute

/-- The canonicalization steps of source `resolve_attribute_type_values` on a
single property: primitive aliases are rewritten to `str`/`bool`/`int`, a
`typeValue` naming a class of the model becomes a resolved composite type
reference, and a resolved simple type is flattened back to `str`. -/
def canonProp (r : Repo) (p : Property) : Property :=
  let p1 :=
    if p.typeValue = some "String" ∨ p.typeValue = some "str" ∨ p.typeValue = some "object" then
      { p with typeValue := some "str" }
    else if p.typeValue = some "Boolean" ∨ p.typeValue = some "bool" then
      { p with typeValue := some "bool" }
    else if p.typeValue = some "Integer" ∨ p.typeValue = some "int" then
      { p with typeValue := some "int" }
    else if p.typeValue = some "UnlimitedNatural" then p
    else
      match (List.range r.classes.length).find? (fun i =>
          match getC r i with
          | some c => c.name == p.typeValue
          | none => false) with
      | some ci => { p with type := some ci, typeValue := none, aggregation := some "composite" }
      | none => p
  if p1.type.isSome && is_simple_type r p1.type then
    { p1 with typeValue := some "str", type := none }
  else p1

/-- The `typeValue`s the final check of `resolve_attribute_type_values`
accepts on a property without a resolved type. -/
def allowedTypeValues : List (Option String) :=
  [some "str", some "int", some "bool", some "UnlimitedNatural", none]

/-- Source `resolve_attribute_type_values` on a single property:
canonicalize, then raise `ValueError` when no type is resolved and the
`typeValue` is not an accepted primitive name (or absent). -/
def resolveProp (r : Repo) (p : Property) : Except VErr Property :=
  if (canonProp r p).type = none ∧ (canonProp r p).typeValue ∉ allowedTypeValues then
    .error (.valueError ("Property value type " ++ pyStr (canonProp r p).typeValue ++
      " can not be found"))
  else .ok (canonProp r p)

/-- `resolveProp` over a list of properties. -/
def resolvePropsList (r : Repo) : List Property → Except VErr (List Property)
  | [] => .ok []
  | p :: ps =>
    match resolveProp r p with
    | .error e => .error e
    | .ok q =>
      match resolvePropsList r ps with
      | .error e => .error e
      | .ok qs => .ok (q :: qs)

/-- `resolveProp` over the owned attributes of every class. -/
def resolveClasses (r : Repo) : List Class → Except VErr (List Class)
  | [] => .ok []
  | c :: cs =>
    match resolvePropsList r c.ownedAttribute with
    | .error e => .error e
    | .ok ps =>
      match resolveClasses r cs with
      | .error e => .error e
      | .ok rest => .ok ({ c with ownedAttribute := ps } :: rest)

/-- Source `resolve_attribute_type_values` over the whole repository (the
class-name searches read only the classes, which the pass never rewrites, so
per-property resolution is independent). -/
def resolve_attribute_type_values (r : Repo) : Except VErr Repo :=
  match resolveClasses r r.classes with
  | .error e => .error e
  | .ok cl => .ok { r with classes := cl }

/-- The candidate filter of source `coder` (lines 146-155), with Python's
short-circuit evaluation order: the enumeration and simple-type tests come
before `is_in_profile`, whose `AttributeError` on a package-less class
propagates, and the tilde-type test comes last. -/
def candidatesGo (r : Repo) : List Nat → Except VErr (List Nat)
  | [] => .ok []
  | i :: rest =>
    match getC r i with
    | none => candidatesGo r rest
    | some c =>
      if is_enumerationC c then candidatesGo r rest
      else if is_simple_type r (some i) then candidatesGo r rest
      else
        match is_in_profile r c with
        | .error e => .error e
        | .ok true => candidatesGo r rest
        | .ok false =>
          if is_tilde_typeC c then candidatesGo r rest
          else
            match candidatesGo r rest with
            | .error e => .error e
            | .ok l => .ok (i :: l)

/-- Source `coder`'s candidate class list: the filter over every class of
the model, in model order. -/
def candidates (r : Repo) : Except VErr (List Nat) :=
  candidatesGo r (List.range r.classes.length)

/-- The fixed header block source `coder` yields first (one yielded string). -/
def headerStr : String :=
  "# This file is generated by coder.py. DO NOT EDIT!\n" ++
  "# ruff: noqa: F401, E402, F811\n" ++
  "# fmt: off\n\n" ++
  "from __future__ import annotations\n\n" ++
  "from gaphor.core.modeling.properties import (\n" ++
  "    association,\n" ++
  "    attribute as _attribute,\n" ++
  "    derived,\n" ++
  "    derivedunion,\n" ++
  "    enumeration as _enumeration,\n" ++
  "    redefine,\n" ++
  "    relation_many,\n" ++
  "    relation_one,\n" ++
  ")\n\n" ++
  "from gaphor.core.modeling.base import UnlimitedNatural\n"

/-- Rename the class with id `i` (the `c.name = f\"_{c.name}\"` mutation). -/
def setClassName (r : Repo) (i : Nat) (n : String) : Repo :=
  match getC r i with
  | some c => { r with classes := r.classes.set i { c with name := some n } }
  | none => r

/-- The declaration chunk the first pass of `coder` emits for one class:
the class header, the body lines (or `    pass` when there are none), and two
blank lines. -/
def chunkFor (r : Repo) (ov : Option Overrides) (i : Nat) (c : Class) :
    Except VErr (List String) :=
  match variablesF r c ov with
  | .error e => .error e
  | .ok props =>
    .ok (class_declaration r i ::
      (if props = [] then ["    pass"] else props.map (fun p => "    " ++ p)) ++ ["", ""])

/-- The first (class-declaration) loop of source `coder`, threading the
repository because the import-alias disambiguation renames a class in place.
`allIds` is the full ordered class list (used by the duplicate-name count),
`imported` the accumulating `already_imported` set. -/
def firstPass (sms : List SuperModel) (ov : Option Overrides) (allIds : List Nat) :
    Repo → List Nat → List String → Except VErr (List String × Repo × List String)
  | r, [], imported => .ok ([], r, imported)
  | r, i :: rest, imported =>
    match getC r i with
    | none => firstPass sms ov allIds r rest imported
    | some c =>
      if has_override ov c.name then
        match firstPass sms ov allIds r rest imported with
        | .error e => .error e
        | .ok (ls, rf, imp) => .ok (get_override ov c.name :: ls, rf, imp)
      else
        match (if (bases r i).isEmpty then in_super_model c.name sms else .ok none) with
        | .error e => .error e
        | .ok (some (et, _cls, _sr)) =>
          let dupCount := (allIds.filterMap (getC r)).countP (fun t => t.name == c.name)
          if dupCount > 1 then
            let line := "from " ++ et.module_ ++ " import " ++ et.name_ ++ " as _" ++
              pyStr c.name
            match firstPass sms ov allIds (setClassName r i ("_" ++ pyStr c.name)) rest
                (line :: imported) with
            | .error e => .error e
            | .ok (ls, rf, imp) => .ok (line :: ls, rf, imp)
          else
            let line := "from " ++ et.module_ ++ " import " ++ et.name_
            match firstPass sms ov allIds r rest (line :: imported) with
            | .error e => .error e
            | .ok (ls, rf, imp) => .ok (line :: ls, rf, imp)
        | .ok none =>
          match chunkFor r ov i c with
          | .error e => .error e
          | .ok chunk =>
            match firstPass sms ov allIds r rest imported with
            | .error e => .error e
            | .ok (ls, rf, imp) => .ok (chunk ++ ls, rf, imp)

/-- The import-deduplication filter `coder` applies to the lines yielded by
`subsets`: a `from ` line already in `already_imported` is dropped, a new one
is recorded. -/
def dedupImports (imported : List String) : List String → List String × List String
  | [] => ([], imported)
  | l :: ls =>
    if strStartsWith l "from " then
      if imported.contains l then dedupImports imported ls
      else
        let (out, imp) := dedupImports (l :: imported) ls
        (l :: out, imp)
    else
      let (out, imp) := dedupImports imported ls
      (l :: out, imp)

/-- Fuel sufficient for the feature-resolution recursion of `subsets` on
acyclic models. -/
def attrFuel (r : Repo) (sms : List SuperModel) : Nat :=
  r.classes.length + (sms.map (fun sm => sm.factory.classes.length)).sum + 2

/-- The association/subsets loop of source `coder` (its final `for`). -/
def secondPass (sms : List SuperModel) (ov : Option Overrides) (r : Repo) :
    List Nat → List String → Except VErr (List String)
  | [], _ => .ok []
  | i :: rest, imported =>
    match getC r i with
    | none => secondPass sms ov r rest imported
    | some c =>
      match associations r c ov with
      | .error e => .error e
      | .ok al =>
        match subsets r sms (attrFuel r sms) c with
        | .error e => .error e
        | .ok (sl, _ws) =>
          let (sl2, imported2) := dedupImports imported sl
          match secondPass sms ov r rest imported2 with
          | .error e => .error e
          | .ok tl => .ok (al ++ sl2 ++ tl)

/-- The operations loop of source `coder` (its second `for`): overridden
operations of every ordered class. -/
def operationsPass (r : Repo) (ov : Option Overrides) (ids : List Nat) : List String :=
  ids.foldr (fun i acc =>
    (match getC r i with
     | some c => operations c ov
     | none => []) ++ acc) []

/-- Source `coder`: order the candidate classes, emit the header, the class
declarations (first pass), the overridden operations, a blank line, then the
associations and subset registrations.  Returns the emitted lines and the
final repository (the first pass may rename classes). -/
def coder (r : Repo) (sms : List SuperModel) (ov : Option Overrides) :
    Except VErr (List String × Repo) :=
  match candidates r with
  | .error e => .error e
  | .ok cands =>
  let ids := order_classes r (classFuel r) cands
  let hdr := headerStr ::
    (match ov with
     | some o =>
       match o.header with
       | some h => [h]
       | none => []
     | none => [])
  match firstPass sms ov ids r ids [] with
  | .error e => .error e
  | .ok (fp, r2, imported) =>
    match secondPass sms ov r2 ids imported with
    | .error e => .error e
    | .ok sp => .ok (hdr ++ fp ++ operationsPass r2 ov ids ++ [""] ++ sp, r2)

/-- Reachability through the `bases` relation (reflexive-transitive). -/
def Reaches (r : Repo) : Nat → Nat → Prop :=
  Relation.ReflTransGen (fun x y => y ∈ bases r x)

/-- A class with its name erased, for stating that emission touches nothing
but the name. -/
def eraseName (c : Class) : Class := { c with name := none }

/-- Two repositories with identical packages and identical classes up to the
class name (the only field emission may rewrite). -/
def reposAgree (r rv : Repo) : Prop :=
  rv.packages = r.packages ∧ rv.classes.length = r.classes.length ∧
    ∀ k : Nat, (r.classes[k]?).map eraseName = (rv.classes[k]?).map eraseName

/-- The ordering invariant of the emitted class sequence: every base of an
emitted class is emitted, at an earlier position. -/
def basesOrdered (r : Repo) (l : List Nat) : Prop :=
  ∀ c ∈ l, ∀ b ∈ bases r c, b ∈ l ∧ l.indexOf b < l.indexOf c


/-! ### Concrete models used by witnesses and counterexamples -/

/-- Diamond-inheritance model: `D` (id 3) has bases `B` (id 1) and `C` (id 2),
which both have base `A` (id 0). -/
def rDiamond : Repo :=
  { classes :=
      [ { emptyClass with name := some "A" },
        { emptyClass with name := some "B", generalization := [⟨0⟩] },
        { emptyClass with name := some "C", generalization := [⟨0⟩] },
        { emptyClass with name := some "D", generalization := [⟨1⟩, ⟨2⟩] } ],
    packages := [] }

/-- A plain association attribute `items : T` on class `S`. -/
def aPlain : Property :=
  { emptyProperty with
    name := some "items"
    type := some 1
    owner := some 0 }

/-- An attribute stereotyped `redefines=base_feature` on class `S`. -/
def aRedef : Property :=
  { emptyProperty with
    name := some "redef1"
    type := some 1
    owner := some 0
    stereotypeSlots :=
      [{ definingFeature := some "redefines", value := some (SlotV.str "base_feature") }] }

/-- Class `S` declaring the redefinition attribute before the plain one. -/
def cS : Class :=
  { emptyClass with
    name := some "S"
    ownedAttribute := [aRedef, aPlain] }

/-- Model holding `S` and its association target `T`. -/
def rAssoc : Repo := { classes := [cS, { emptyClass with name := some "T" }], packages := [] }

/-- Attribute `a : T` on class `C`, stereotyped `subsets = "x"`. -/
def aSubsetting : Property :=
  { emptyProperty with
    name := some "a"
    type := some 1
    owner := some 0
    stereotypeSlots :=
      [{ definingFeature := some "subsets", value := some (SlotV.str "x") }] }

/-- Attribute `x` on class `C`: a plain, non-derived feature (no derived
union). -/
def aPlainX : Property :=
  { emptyProperty with
    name := some "x"
    owner := some 0 }

/-- Class `C` owning both attributes. -/
def cSub : Class :=
  { emptyClass with
    name := some "C"
    ownedAttribute := [aSubsetting, aPlainX] }

/-- Model for the subsets counterexample: `C` plus the type `T`. -/
def rSub : Repo := { classes := [cSub, { emptyClass with name := some "T" }], packages := [] }

/-- Model for the C5 theorems: a single class named `A`. -/
def rC5 : Repo := { classes := [{ emptyClass with name := some "A" }], packages := [] }

/-- A property whose `typeValue` names no class and no primitive. -/
def pC5bad : Property := { emptyProperty with name := some "p", typeValue := some "Foo" }

/-- A property with a declared `int` kind and a string-literal default. -/
def pC6mis : Property :=
  { emptyProperty with
    name := some "p"
    owner := some 0
    typeValue := some "int"
    defaultValue := some (.str "abc" "<LiteralString element>") }

/-- A property with a `UnlimitedNatural` typeValue and an integer-literal
default. -/
def pC6un : Property :=
  { emptyProperty with
    name := some "q"
    owner := some 0
    typeValue := some "UnlimitedNatural"
    defaultValue := some (.int "3" "<LiteralInteger element>") }

/-- A property with a `bool` typeValue and an integer-literal default (the
source keeps the object and interpolates its rendering). -/
def pC6boolInt : Property :=
  { emptyProperty with
    name := some "bi"
    owner := some 0
    typeValue := some "bool"
    defaultValue := some (.int "7" "<LiteralInteger element>") }

/-- A property with a `bool` typeValue and a boolean literal rendered
`true`. -/
def pC6b : Property :=
  { emptyProperty with
    name := some "b"
    owner := some 0
    typeValue := some "bool"
    defaultValue := some (.bool "true" "<LiteralBoolean element>") }

/-- Spec-side precondition helper for C10: if the attribute's type resolves,
it has at least one owned literal. -/
def enumHasLiterals (r : Repo) (a : Property) : Bool :=
  match a.type.bind (getC r) with
  | some t => !t.ownedAttribute.isEmpty
  | none => true

/-- An enumeration class `ColorKind` with zero owned literals. -/
def cEnumEmpty : Class := { emptyClass with name := some "ColorKind" }

/-- An attribute typed by the empty enumeration. -/
def aEnumAttr : Property :=
  { emptyProperty with
    name := some "kind"
    type := some 1
    owner := some 0 }

/-- A class owning the enumeration-typed attribute. -/
def cEnumOwner : Class :=
  { emptyClass with
    name := some "E"
    ownedAttribute := [aEnumAttr] }

/-- Model with an attribute typed by a literal-less enumeration. -/
def rEnumBad : Repo := { classes := [cEnumOwner, cEnumEmpty], packages := [] }

/-- The same model with one literal `red` in the enumeration. -/
def rEnumGood : Repo :=
  { classes :=
      [ cEnumOwner,
        { emptyClass with
          name := some "ColorKind"
          ownedAttribute := [{ emptyProperty with name := some "red", owner := some 1 }] } ],
    packages := [] }

/-- A non-profile root package housing the witness models' classes (every
class needs an owning package, since `is_in_profile` dereferences it). -/
def rootPkg : Package := { owningPackage := none, isProfile := false }

/-- Two same-named classes in a root package, to trigger the duplicate-name
rename. -/
def rDup : Repo :=
  { classes :=
      [ { emptyClass with name := some "X", owningPackage := some 0 },
        { emptyClass with name := some "X", owningPackage := some 0 } ],
    packages := [rootPkg] }

/-- A super model declaring `X`, resolvable by its modeling language. -/
def smX : SuperModel :=
  { lookup_element := fun n =>
      if n = "X" then some { module_ := "gaphor.UML.uml", name_ := "X" } else none
    factory :=
      { classes := [{ emptyClass with name := some "X", owningPackage := some 0 }],
        packages := [rootPkg] } }

def rEmptyRepo : Repo := { classes := [], packages := [] }

/-- One attribute-less, base-less packaged class `A`. -/
def rOneA : Repo :=
  { classes := [{ emptyClass with name := some "A", owningPackage := some 0 }],
    packages := [rootPkg] }

/-- A candidate class `Main` whose base `BKind` is an enumeration (excluded
from the candidate filter), both in a root package. -/
def rFilter : Repo :=
  { classes :=
      [ { emptyClass with
          name := some "Main"
          generalization := [⟨1⟩]
          owningPackage := some 0 },
        { emptyClass with name := some "BKind", owningPackage := some 0 } ],
    packages := [rootPkg] }

/-! ### Lemmas and claim theorems -/

theorem bases_out_of_range {r : Repo} {i : Nat} (h : r.classes.length ≤ i) :
    bases r i = [] := by
  have h2 : getC r i = none := List.getElem?_eq_none h
  simp [bases, h2]

theorem orderGo_mem_generic (P : Nat → Prop) {visit : Nat → List Nat → List Nat}
    (hv : ∀ c seen, P c → c ∈ seen ++ visit c seen) :
    ∀ cs seen x, x ∈ cs → P x → x ∈ seen ++ orderGo visit cs seen := by
  intro cs
  induction cs with
  | nil => intro seen x hx _; cases hx
  | cons c rest ih =>
    intro seen x hx hp
    rcases List.mem_cons.mp hx with h | h
    · subst h
      have := hv x seen hp
      simp only [orderGo, List.mem_append] at this ⊢
      tauto
    · have := ih (seen ++ visit c seen) x h hp
      simp only [orderGo, List.mem_append] at this ⊢
      tauto

theorem orderVisit_self_mem {r : Repo} {fuel : Nat} (hf : 1 ≤ fuel) (c : Nat)
    (seen : List Nat) : c ∈ seen ++ orderVisit r fuel c seen := by
  match fuel, hf with
  | fuel + 1, _ =>
    by_cases hc : c ∈ seen
    · exact List.mem_append_left _ hc
    · simp [orderVisit, hc]

theorem orderGo_rank_generic {rank : Nat → Nat} {visit : Nat → List Nat → List Nat}
    (hv : ∀ c seen x, x ∈ visit c seen → rank x ≤ rank c) :
    ∀ cs seen x, x ∈ orderGo visit cs seen → ∃ c ∈ cs, rank x ≤ rank c := by
  intro cs
  induction cs with
  | nil => intro seen x hx; cases hx
  | cons c rest ih =>
    intro seen x hx
    simp only [orderGo, List.mem_append] at hx
    rcases hx with hx | hx
    · exact ⟨c, List.mem_cons_self _ _, hv c seen x hx⟩
    · obtain ⟨d, hd, hr⟩ := ih _ x hx
      exact ⟨d, List.mem_cons_of_mem _ hd, hr⟩

theorem orderVisit_rank {r : Repo} {rank : Nat → Nat}
    (hrank : ∀ c b, b ∈ bases r c → rank b < rank c) :
    ∀ fuel c seen x, x ∈ orderVisit r fuel c seen → rank x ≤ rank c := by
  intro fuel
  induction fuel with
  | zero => intro c seen x hx; cases hx
  | succ fuel ih =>
    intro c seen x hx
    by_cases hc : c ∈ seen
    · simp [orderVisit, hc] at hx
    · simp only [orderVisit, if_neg hc, List.mem_append, List.mem_singleton] at hx
      rcases hx with hx | hx
      · obtain ⟨b, hb, hr⟩ := orderGo_rank_generic ih (bases r c) seen x hx
        exact le_of_lt (lt_of_le_of_lt hr (hrank c b hb))
      · exact hx ▸ le_refl _

theorem orderVisit_not_self {r : Repo} {rank : Nat → Nat}
    (hrank : ∀ c b, b ∈ bases r c → rank b < rank c) (fuel : Nat) (c : Nat)
    (seen : List Nat) : c ∉ orderGo (orderVisit r fuel) (bases r c) seen := by
  intro hmem
  obtain ⟨b, hb, hr⟩ :=
    orderGo_rank_generic (orderVisit_rank hrank fuel) (bases r c) seen c hmem
  exact absurd (lt_of_le_of_lt hr (hrank c b hb)) (lt_irrefl _)

theorem orderGo_nodup_generic {visit : Nat → List Nat → List Nat}
    (hv : ∀ c seen, seen.Nodup → (seen ++ visit c seen).Nodup) :
    ∀ cs seen, seen.Nodup → (seen ++ orderGo visit cs seen).Nodup := by
  intro cs
  induction cs with
  | nil => intro seen h; simpa [orderGo]
  | cons c rest ih =>
    intro seen h
    have h2 := ih (seen ++ visit c seen) (hv c seen h)
    simpa only [orderGo, List.append_assoc] using h2

theorem orderVisit_nodup {r : Repo} {rank : Nat → Nat}
    (hrank : ∀ c b, b ∈ bases r c → rank b < rank c) :
    ∀ fuel c seen, seen.Nodup → (seen ++ orderVisit r fuel c seen).Nodup := by
  intro fuel
  induction fuel with
  | zero => intro c seen h; simpa [orderVisit]
  | succ fuel ih =>
    intro c seen h
    by_cases hc : c ∈ seen
    · simpa [orderVisit, hc]
    · have hpre := orderGo_nodup_generic ih (bases r c) seen h
      have hcnot : c ∉ seen ++ orderGo (orderVisit r fuel) (bases r c) seen := by
        simp only [List.mem_append, not_or]
        exact ⟨hc, orderVisit_not_self hrank fuel c seen⟩
      have h2 : (seen ++ orderGo (orderVisit r fuel) (bases r c) seen ++ [c]).Nodup := by
        rw [List.nodup_append]
        refine ⟨hpre, List.nodup_singleton c, ?_⟩
        intro a ha hb
        rw [List.mem_singleton] at hb
        exact hcnot (hb ▸ ha)
      simpa only [orderVisit, if_neg hc, List.append_assoc] using h2

theorem basesOrdered_append_single {r : Repo} {l : List Nat} {c : Nat}
    (hl : basesOrdered r l) (hb : ∀ b ∈ bases r c, b ∈ l) (hc : c ∉ l) :
    basesOrdered r (l ++ [c]) := by
  intro x hx b hbx
  rcases List.mem_append.mp hx with hx | hx
  · obtain ⟨hbl, hidx⟩ := hl x hx b hbx
    refine ⟨List.mem_append_left _ hbl, ?_⟩
    rw [List.indexOf_append_of_mem hbl, List.indexOf_append_of_mem hx]
    exact hidx
  · have hxc : x = c := by simpa using hx
    subst hxc
    have hbl := hb b hbx
    refine ⟨List.mem_append_left _ hbl, ?_⟩
    rw [List.indexOf_append_of_mem hbl, List.indexOf_append_of_not_mem hc,
      List.indexOf_cons_self]
    simpa using List.indexOf_lt_length.mpr hbl

theorem orderGo_ordered_generic {r : Repo} {visit : Nat → List Nat → List Nat}
    (P : Nat → Prop)
    (hv : ∀ c seen, P c → basesOrdered r seen → basesOrdered r (seen ++ visit c seen)) :
    ∀ cs seen, (∀ c ∈ cs, P c) → basesOrdered r seen →
      basesOrdered r (seen ++ orderGo visit cs seen) := by
  intro cs
  induction cs with
  | nil => intro seen _ h; simpa [orderGo]
  | cons c rest ih =>
    intro seen hp h
    have h1 := hv c seen (hp c (List.mem_cons_self _ _)) h
    have h2 := ih (seen ++ visit c seen) (fun d hd => hp d (List.mem_cons_of_mem _ hd)) h1
    simpa only [orderGo, List.append_assoc] using h2

theorem orderVisit_ordered {r : Repo} {rank : Nat → Nat}
    (hrank : ∀ c b, b ∈ bases r c → rank b < rank c) :
    ∀ fuel c seen, rank c < fuel → basesOrdered r seen →
      basesOrdered r (seen ++ orderVisit r fuel c seen) := by
  intro fuel
  induction fuel with
  | zero => intro c seen h; omega
  | succ fuel ih =>
    intro c seen hrc h
    by_cases hc : c ∈ seen
    · simpa [orderVisit, hc]
    · have hpreOrd : basesOrdered r (seen ++ orderGo (orderVisit r fuel) (bases r c) seen) :=
        orderGo_ordered_generic (fun d => rank d < fuel) ih (bases r c) seen
          (fun b hb => by have := hrank c b hb; omega) h
      have hbmem : ∀ b ∈ bases r c, b ∈ seen ++ orderGo (orderVisit r fuel) (bases r c) seen := by
        intro b hb
        refine orderGo_mem_generic (fun d => d ∈ bases r c) ?_ (bases r c) seen b hb hb
        intro d sn hd
        have h1f : 1 ≤ fuel := by have := hrank c d hd; omega
        exact orderVisit_self_mem h1f d sn
      have hcnot : c ∉ seen ++ orderGo (orderVisit r fuel) (bases r c) seen := by
        simp only [List.mem_append, not_or]
        exact ⟨hc, orderVisit_not_self hrank fuel c seen⟩
      have h2 := basesOrdered_append_single hpreOrd hbmem hcnot
      simpa only [orderVisit, if_neg hc, List.append_assoc] using h2

theorem order_classes_ordered {r : Repo} {rank : Nat → Nat} {fuel : Nat} {input : List Nat}
    (hrank : ∀ c b, b ∈ bases r c → rank b < rank c)
    (hfuel : ∀ c ∈ input, rank c < fuel) :
    basesOrdered r (order_classes r fuel input) := by
  have := orderGo_ordered_generic (fun d => rank d < fuel) (orderVisit_ordered hrank fuel)
    input [] hfuel (fun x hx => absurd hx (List.not_mem_nil x))
  simpa [order_classes] using this

theorem order_classes_nodup {r : Repo} {rank : Nat → Nat} {fuel : Nat} {input : List Nat}
    (hrank : ∀ c b, b ∈ bases r c → rank b < rank c) :
    (order_classes r fuel input).Nodup := by
  have := orderGo_nodup_generic (orderVisit_nodup hrank fuel) input [] List.nodup_nil
  simpa [order_classes] using this

theorem order_classes_mem {r : Repo} {fuel : Nat} (hf : 1 ≤ fuel) :
    ∀ cs x, x ∈ cs → x ∈ order_classes r fuel cs := by
  intro cs x hx
  have := @orderGo_mem_generic (fun _ => True) (orderVisit r fuel)
    (fun c seen _ => orderVisit_self_mem hf c seen) cs [] x hx trivial
  simpa [order_classes] using this

theorem order_classes_closure {r : Repo} {rank : Nat → Nat} {fuel : Nat} {input : List Nat}
    (hrank : ∀ c b, b ∈ bases r c → rank b < rank c)
    (hfuel : ∀ c ∈ input, rank c < fuel) :
    ∀ c ∈ input, ∀ b, Reaches r c b → b ∈ order_classes r fuel input := by
  intro c hc b hreach
  have hord := order_classes_ordered hrank hfuel
  have hfuel1 : 1 ≤ fuel := by have := hfuel c hc; omega
  have h' : Relation.ReflTransGen (fun x y => y ∈ bases r x) c b := hreach
  clear hreach
  induction h' with
  | refl => exact order_classes_mem hfuel1 input c hc
  | tail hxy hstep ih => exact (hord _ ih _ hstep).1

/-- In the diamond model every base has a smaller id, so the identity is a
rank function witnessing acyclicity. -/
theorem rDiamond_hrank : ∀ c b, b ∈ bases rDiamond c → b < c := by
  intro c b hb
  match c with
  | 0 => rw [show bases rDiamond 0 = [] by decide] at hb; cases hb
  | 1 =>
    rw [show bases rDiamond 1 = [0] by decide] at hb
    simp at hb; omega
  | 2 =>
    rw [show bases rDiamond 2 = [0] by decide] at hb
    simp at hb; omega
  | 3 =>
    rw [show bases rDiamond 3 = [1, 2] by decide] at hb
    simp at hb; rcases hb with h | h <;> omega
  | n + 4 =>
    rw [bases_out_of_range (by simp [rDiamond])] at hb
    cases hb

/-- Claim C1: in the sequence produced by `order_classes` (the input's bases
graph being acyclic, witnessed by a rank function, and the fuel sufficient),
every direct base of an emitted class — whether from an explicit
generalization or from a `baseClass` marker attribute, both collected by
`bases` — itself occurs in the sequence, at a strictly earlier position, so
its declaration or import is emitted before the class itself. -/
theorem C1_order_classes_bases_precede (r : Repo) (rank : Nat → Nat) (fuel : Nat)
    (input : List Nat)
    (hrank : ∀ c b, b ∈ bases r c → rank b < rank c)
    (hfuel : ∀ c ∈ input, rank c < fuel) :
    ∀ c ∈ order_classes r fuel input, ∀ b ∈ bases r c,
      b ∈ order_classes r fuel input ∧
        (order_classes r fuel input).indexOf b < (order_classes r fuel input).indexOf c :=
  order_classes_ordered hrank hfuel

/-- Witness for C1 on the diamond model: base `B` (id 1) of `D` (id 3)
occurs, before `D`. -/
theorem C1_witness :
    (1 : Nat) ∈ order_classes rDiamond 6 [3] ∧
      (order_classes rDiamond 6 [3]).indexOf 1 < (order_classes rDiamond 6 [3]).indexOf 3 :=
  C1_order_classes_bases_precede rDiamond (fun i => i) 6 [3] rDiamond_hrank (by decide)
    3 (by decide) 1 (by decide)

/-- Claim C2: on an acyclic input, any class reachable from the input of
`order_classes` through the bases relation — in particular a class reachable
along two distinct generalization paths of a diamond — occurs exactly once in
the output sequence. -/
theorem C2_order_classes_once (r : Repo) (rank : Nat → Nat) (fuel : Nat)
    (input : List Nat)
    (hrank : ∀ c b, b ∈ bases r c → rank b < rank c)
    (hfuel : ∀ c ∈ input, rank c < fuel) :
    ∀ c ∈ input, ∀ b, Reaches r c b → (order_classes r fuel input).count b = 1 :=
  fun c hc b hreach =>
    List.count_eq_one_of_mem (order_classes_nodup hrank)
      (order_classes_closure hrank hfuel c hc b hreach)

/-- Witness for C2 on the diamond model: `A` (id 0) is reachable from `D`
(id 3) along both `D → B → A` and `D → C → A`, and occurs exactly once. -/
theorem C2_witness : (order_classes rDiamond 6 [3]).count 0 = 1 :=
  C2_order_classes_once rDiamond (fun i => i) 6 [3] rDiamond_hrank (by decide) 3 (by decide) 0
    (Relation.ReflTransGen.tail
      (Relation.ReflTransGen.tail Relation.ReflTransGen.refl
        (show (1 : Nat) ∈ bases rDiamond 3 by decide))
      (show (0 : Nat) ∈ bases rDiamond 1 by decide))

theorem associationsAux_spec (r : Repo) (c : Class) (ov : Option Overrides) :
    ∀ attrs acc ls, associationsAux r c ov attrs acc = .ok ls →
      ls = attrs.filterMap (ordinaryLineOf r c ov) ++ acc ++
        attrs.filterMap (redefLineOnly r c ov) := by
  intro attrs
  induction attrs with
  | nil =>
    intro acc ls h
    simp only [associationsAux, Except.ok.injEq] at h
    simp [h.symm]
  | cons a rest ih =>
    intro acc ls h
    simp only [associationsAux] at h
    by_cases h1 : has_override ov (some (assocFullName c a))
    · rw [if_pos h1] at h
      cases hrec : associationsAux r c ov rest acc with
      | error e => rw [hrec] at h; cases h
      | ok tl =>
        rw [hrec] at h
        simp only [Except.ok.injEq] at h
        subst h
        rw [ih acc tl hrec]
        simp [List.filterMap_cons, ordinaryLineOf, redefLineOnly, h1]
    · rw [if_neg h1] at h
      by_cases h2 : assocSkip r a
      · rw [if_pos h2] at h
        rw [ih acc ls h]
        simp [List.filterMap_cons, ordinaryLineOf, redefLineOnly, h1, h2]
      · rw [if_neg h2] at h
        by_cases h3 : truthySlotV (redefines a)
        · rw [if_pos h3] at h
          rw [ih _ ls h]
          simp [List.filterMap_cons, ordinaryLineOf, redefLineOnly, h1, h2, h3]
        · rw [if_neg h3] at h
          by_cases h4 : a.isDerived
          · rw [if_pos h4] at h
            cases hrec : associationsAux r c ov rest acc with
            | error e => rw [hrec] at h; cases h
            | ok tl =>
              rw [hrec] at h
              simp only [Except.ok.injEq] at h
              subst h
              rw [ih acc tl hrec]
              simp [List.filterMap_cons, ordinaryLineOf, redefLineOnly, h1, h2, h3, h4]
          · rw [if_neg h4] at h
            by_cases h5 : !truthyName a.name
            · rw [if_pos h5] at h; cases h
            · rw [if_neg h5] at h
              cases hrec : associationsAux r c ov rest acc with
              | error e => rw [hrec] at h; cases h
              | ok tl =>
                rw [hrec] at h
                simp only [Except.ok.injEq] at h
                subst h
                rw [ih acc tl hrec]
                simp [List.filterMap_cons, ordinaryLineOf, redefLineOnly, h1, h2, h3, h4, h5]

/-- Claim C7: within the association-pass output for a single class, every
redefinition-binding line is emitted after every plain association, override
and derived-union line of that class: a successful `associations` output
always splits into the ordinary lines followed by the redefinition lines. -/
theorem C7_redefinitions_last (r : Repo) (c : Class) (ov : Option Overrides)
    (ls : List String) (h : associations r c ov = .ok ls) :
    ls = ordinaryLines r c ov ++ redefinitionLines r c ov := by
  have h2 := associationsAux_spec r c ov c.ownedAttribute [] ls h
  simpa [ordinaryLines, redefinitionLines] using h2

/-- Witness for C7: on class `S`, whose redefining attribute precedes its
plain association attribute, the emitted lines are the association line then
the redefinition-binding line. -/
theorem C7_witness :
    (["S.items = association(\"items\", T)",
      "S.redef1 = redefine(S, \"redef1\", T, base_feature)"] : List String) =
      ordinaryLines rAssoc cS none ++ redefinitionLines rAssoc cS none :=
  C7_redefinitions_last rAssoc cS none
    ["S.items = association(\"items\", T)",
     "S.redef1 = redefine(S, \"redef1\", T, base_feature)"] rfl

theorem subsetsValues_no_ndu (sms : List SuperModel) (fuel : Nat) (r : Repo) (c : Class)
    (full : String) :
    ∀ vs ls ws, subsetsValues sms fuel r c full vs = .ok (ls, ws) →
      ∀ f v, SubWarn.notDerivedUnion f v ∉ ws := by
  intro vs
  induction vs with
  | nil =>
    intro ls ws h f v
    simp only [subsetsValues, Except.ok.injEq, Prod.mk.injEq] at h
    rw [← h.2]
    exact List.not_mem_nil _
  | cons v0 rest ih =>
    intro ls ws h f v
    simp only [subsetsValues] at h
    cases hres : attributeRes sms fuel r c (pyStrip v0) with
    | error e => rw [hres] at h; cases h
    | ok p =>
      rw [hres] at h
      obtain ⟨et, d⟩ := p
      cases hrec : subsetsValues sms fuel r c full rest with
      | error e => rw [hrec] at h; cases h
      | ok q =>
        rw [hrec] at h
        obtain ⟨ls2, ws2⟩ := q
        dsimp only at h
        by_cases hd : d.isSome
        · rw [dif_pos hd] at h
          simp only [Except.ok.injEq, Prod.mk.injEq] at h
          rw [← h.2]
          exact ih ls2 ws2 hrec f v
        · rw [dif_neg hd] at h
          have hdn : d.isNone := by
            cases d with
            | none => rfl
            | some x => exact absurd rfl hd
          rw [if_pos hdn] at h
          simp only [Except.ok.injEq, Prod.mk.injEq] at h
          rw [← h.2]
          intro hm
          rcases List.mem_cons.mp hm with hm | hm
          · cases hm
          · exact ih ls2 ws2 hrec f v hm

theorem subsetsSlots_no_ndu (sms : List SuperModel) (fuel : Nat) (r : Repo) (c : Class)
    (a : Property) :
    ∀ slots ls ws, subsetsSlots sms fuel r c a slots = .ok (ls, ws) →
      ∀ f v, SubWarn.notDerivedUnion f v ∉ ws := by
  intro slots
  induction slots with
  | nil =>
    intro ls ws h f v
    simp only [subsetsSlots, Except.ok.injEq, Prod.mk.injEq] at h
    rw [← h.2]
    exact List.not_mem_nil _
  | cons s0 rest ih =>
    intro ls ws h f v
    simp only [subsetsSlots] at h
    by_cases hs : s0.definingFeature == some "subsets"
    · rw [if_pos hs] at h
      cases hv : subsetsValues sms fuel r c (pyStr c.name ++ "." ++ pyStr a.name)
          (pySplit ',' (match get_slot_value s0 with
            | some (.str s) => s
            | _ => "")) with
      | error e => rw [hv] at h; cases h
      | ok p =>
        rw [hv] at h
        obtain ⟨ls1, ws1⟩ := p
        cases hrec : subsetsSlots sms fuel r c a rest with
        | error e => rw [hrec] at h; cases h
        | ok q =>
          rw [hrec] at h
          obtain ⟨ls2, ws2⟩ := q
          simp only [Except.ok.injEq, Prod.mk.injEq] at h
          rw [← h.2]
          intro hm
          rcases List.mem_append.mp hm with hm | hm
          · exact subsetsValues_no_ndu sms fuel r c _ _ ls1 ws1 hv f v hm
          · exact ih ls2 ws2 hrec f v hm
    · rw [if_neg hs] at h
      exact ih ls ws h f v

theorem subsetsAttrs_no_ndu (sms : List SuperModel) (fuel : Nat) (r : Repo) (c : Class) :
    ∀ attrs ls ws, subsetsAttrs sms fuel r c attrs = .ok (ls, ws) →
      ∀ f v, SubWarn.notDerivedUnion f v ∉ ws := by
  intro attrs
  induction attrs with
  | nil =>
    intro ls ws h f v
    simp only [subsetsAttrs, Except.ok.injEq, Prod.mk.injEq] at h
    rw [← h.2]
    exact List.not_mem_nil _
  | cons a rest ih =>
    intro ls ws h f v
    simp only [subsetsAttrs] at h
    by_cases hs : assocSkip r a
    · rw [if_pos hs] at h
      exact ih ls ws h f v
    · rw [if_neg hs] at h
      cases hv : subsetsSlots sms fuel r c a a.stereotypeSlots with
      | error e => rw [hv] at h; cases h
      | ok p =>
        rw [hv] at h
        obtain ⟨ls1, ws1⟩ := p
        cases hrec : subsetsAttrs sms fuel r c rest with
        | error e => rw [hrec] at h; cases h
        | ok q =>
          rw [hrec] at h
          obtain ⟨ls2, ws2⟩ := q
          simp only [Except.ok.injEq, Prod.mk.injEq] at h
          rw [← h.2]
          intro hm
          rcases List.mem_append.mp hm with hm | hm
          · exact subsetsSlots_no_ndu sms fuel r c a _ ls1 ws1 hv f v hm
          · exact ih ls2 ws2 hrec f v hm

/-- Counterexample to claim C3 as stated: on class `C`, the `subsets = "x"`
stereotype resolves to the existing feature `x` of `C`, which is not a
derived union (`isDerived` is false), yet the pass emits the registration
line and logs no warning. -/
theorem C3_counterexample :
    subsets rSub [] 4 cSub = .ok (["C.x.add(C.a)  # type: ignore[attr-defined]"], []) := rfl

/-- Claim C3, amended: when the named feature resolves to an existing
feature, the subsets pass emits the registration line and logs no warning
even when the feature is not a derived union; the not-a-derived-union
warning branch is unreachable (the `d.isDerived` test before it is commented
out in the source), so no `notDerivedUnion` warning ever appears. -/
theorem C3_no_derived_union_warning (r : Repo) (sms : List SuperModel)
    (fuel : Nat) (c : Class) (ls : List String) (ws : List SubWarn)
    (h : subsets r sms fuel c = .ok (ls, ws)) :
    ∀ f v, SubWarn.notDerivedUnion f v ∉ ws :=
  subsetsAttrs_no_ndu sms fuel r c c.ownedAttribute ls ws h

/-- Witness for the amended C3 on the concrete model. -/
theorem C3_witness : SubWarn.notDerivedUnion "C.a" "x" ∉ ([] : List SubWarn) :=
  C3_no_derived_union_warning rSub [] 4 cSub
    ["C.x.add(C.a)  # type: ignore[attr-defined]"] [] rfl "C.a" "x"

/-- Claim C5, amended: the normalization pass raises a fatal error for every
property that, after canonicalization, has no resolved type and a `typeValue`
that is set but is not a recognized primitive name (`str`, `int`, `bool`,
`UnlimitedNatural`); a property whose `typeValue` is unset survives even with
no resolved type. -/
theorem C5_unresolved_typeValue_fatal (r : Repo) (p : Property)
    (h1 : (canonProp r p).type = none)
    (h2 : (canonProp r p).typeValue ∉ allowedTypeValues) :
    resolveProp r p =
      .error (.valueError ("Property value type " ++ pyStr (canonProp r p).typeValue ++
        " can not be found")) := by
  unfold resolveProp
  rw [if_pos ⟨h1, h2⟩]

/-- Witness for the amended C5: `typeValue = "Foo"` resolves to nothing and
is fatal. -/
theorem C5_witness :
    resolveProp rC5 pC5bad =
      .error (.valueError ("Property value type " ++ pyStr (canonProp rC5 pC5bad).typeValue ++
        " can not be found")) :=
  C5_unresolved_typeValue_fatal rC5 pC5bad (by decide) (by decide)

/-- Counterexample to claim C5 as stated: a property with neither a resolved
type nor any `typeValue` (so certainly none naming a recognized primitive)
passes normalization without a fatal error and survives unchanged. -/
theorem C5_counterexample : resolveProp rC5 emptyProperty = .ok emptyProperty := rfl

/-- Claim C6, amended: `default_value` raises its fatal error exactly when a
truthy default is present and the declared `typeValue` is none of `int`,
`str`, `bool` (an if-and-only-if); a default literal of any element kind
against a declared `int` or `str` kind raises no error and has its value
string emitted as-is; in the `bool` branch a literal element that is neither
a `LiteralBoolean` nor a `LiteralString` is interpolated as the literal
object's own rendering; and the textual literals `true`/`false` are
normalized to `True`/`False`. -/
theorem C6_default_value (r : Repo) :
    (∀ a : Property,
        (∃ e, default_value r a = .error e) ↔
          (truthyDefault a.defaultValue ∧
            a.typeValue ∉ [some "int", some "str", some "bool"])) ∧
      (∀ a : Property, ∀ l : Literal, a.defaultValue = some l → l.isElem →
        (a.typeValue = some "int" ∨ a.typeValue = some "str") →
        default_value r a = .ok (", default=" ++ get_literal_value_as_string l)) ∧
      (∀ a : Property, ∀ s os : String, a.typeValue = some "bool" →
        (a.defaultValue = some (.int s os) ∨ a.defaultValue = some (.un s os)) →
        default_value r a = .ok (", default=" ++ os)) ∧
      (∀ a : Property, ∀ s os : String, a.typeValue = some "bool" →
        (a.defaultValue = some (.bool s os) ∨ a.defaultValue = some (.str s os)) →
        ((s = "true" → default_value r a = .ok ", default=True") ∧
          (s = "false" → default_value r a = .ok ", default=False"))) := by
  refine ⟨?_, ?_, ?_, ?_⟩
  · intro a
    constructor
    · rintro ⟨e, he⟩
      unfold default_value at he
      by_cases htr : truthyDefault a.defaultValue
      · rw [if_pos htr] at he
        refine ⟨htr, ?_⟩
        cases hdv : a.defaultValue with
        | none => rw [hdv] at he; cases he
        | some dv =>
          rw [hdv] at he
          dsimp only at he
          by_cases h1 : a.typeValue = some "int"
          · rw [if_pos h1] at he
            cases dv <;> cases he
          · rw [if_neg h1] at he
            by_cases h2 : a.typeValue = some "str"
            · rw [if_pos h2] at he
              cases dv <;> cases he
            · rw [if_neg h2] at he
              by_cases h3 : a.typeValue = some "bool"
              · rw [if_pos h3] at he
                cases dv <;> cases he
              · simp [h1, h2, h3]
      · rw [if_neg htr] at he
        cases he
    · rintro ⟨htr, hne⟩
      unfold default_value
      rw [if_pos htr]
      cases hdv : a.defaultValue with
      | none => rw [hdv] at htr; simp [truthyDefault] at htr
      | some dv =>
        dsimp only
        simp only [List.mem_cons, List.not_mem_nil, or_false, not_or] at hne
        obtain ⟨h1, h2, h3⟩ := hne
        rw [if_neg h1, if_neg h2, if_neg h3]
        cases howner : a.owner.bind (getC r) with
        | some oc => exact ⟨_, rfl⟩
        | none => exact ⟨_, rfl⟩
  · intro a l hdl helem hty
    have htr : truthyDefault a.defaultValue := by
      rw [hdl]
      cases l with
      | raw s => simp [Literal.isElem] at helem
      | _ => rfl
    unfold default_value
    rw [if_pos htr, hdl]
    dsimp only
    rcases hty with hty | hty
    · rw [if_pos hty]
      cases l with
      | raw s => simp [Literal.isElem] at helem
      | _ => rfl
    · rw [if_neg (by rw [hty]; decide), if_pos hty]
      cases l with
      | raw s => simp [Literal.isElem] at helem
      | _ => rfl
  · intro a s os htv hd
    have htr : truthyDefault a.defaultValue := by rcases hd with hd | hd <;> rw [hd] <;> rfl
    unfold default_value
    rw [if_pos htr]
    rcases hd with hd | hd <;>
      rw [hd] <;>
      · dsimp only
        rw [if_neg (by rw [htv]; decide), if_neg (by rw [htv]; decide), if_pos htv]
  · intro a s os htv hd
    have htr : truthyDefault a.defaultValue := by rcases hd with hd | hd <;> rw [hd] <;> rfl
    constructor
    · intro hs
      subst hs
      unfold default_value
      rw [if_pos htr]
      rcases hd with hd | hd <;>
        rw [hd] <;>
        · dsimp only
          rw [if_neg (by rw [htv]; decide), if_neg (by rw [htv]; decide), if_pos htv]
          rfl
    · intro hs
      subst hs
      unfold default_value
      rw [if_pos htr]
      rcases hd with hd | hd <;>
        rw [hd] <;>
        · dsimp only
          rw [if_neg (by rw [htv]; decide), if_neg (by rw [htv]; decide), if_pos htv]
          rfl

/-- Witness for the amended C6: an `UnlimitedNatural`-typed default is fatal
and none of `int`/`str`/`bool` defaults are; an `int`-typed string literal is
emitted with its value string; a `bool`-typed integer literal is interpolated
as the element's rendering; and a `bool`-typed `true` literal is normalized
to `True`. -/
theorem C6_witness :
    ((∃ e, default_value rC5 pC6un = .error e) ↔
        (truthyDefault pC6un.defaultValue ∧
          pC6un.typeValue ∉ [some "int", some "str", some "bool"])) ∧
      default_value rC5 pC6mis =
        .ok (", default=" ++ get_literal_value_as_string (.str "abc" "<LiteralString element>")) ∧
      default_value rC5 pC6boolInt = .ok ", default=<LiteralInteger element>" ∧
      default_value rC5 pC6b = .ok ", default=True" :=
  ⟨(C6_default_value rC5).1 pC6un,
    (C6_default_value rC5).2.1 pC6mis (.str "abc" "<LiteralString element>") rfl rfl (Or.inl rfl),
    (C6_default_value rC5).2.2.1 pC6boolInt "7" "<LiteralInteger element>" rfl (Or.inl rfl),
    ((C6_default_value rC5).2.2.2 pC6b "true" "<LiteralBoolean element>" rfl (Or.inl rfl)).1 rfl⟩

/-- Counterexample to claim C6 as stated: a declared `int` kind with a
string-literal default `abc` raises no error — the mismatched literal is
emitted as-is. -/
theorem C6_counterexample : default_value rC5 pC6mis = .ok ", default=abc" := rfl

theorem default_value_not_indexError (r : Repo) (a : Property) :
    default_value r a ≠ .error .indexError := by
  intro h
  unfold default_value at h
  repeat' split at h
  all_goals simp_all

theorem mem_insertByKey {α : Type} (key : α → String) (x a : α) :
    ∀ l, a ∈ insertByKey key x l ↔ a = x ∨ a ∈ l := by
  intro l
  induction l with
  | nil => simp [insertByKey]
  | cons y ys ih =>
    simp only [insertByKey]
    split
    · simp [List.mem_cons]
    · simp only [List.mem_cons, ih]
      tauto

theorem mem_sortByKey {α : Type} (key : α → String) (a : α) :
    ∀ l, a ∈ sortByKey key l ↔ a ∈ l := by
  intro l
  induction l with
  | nil => simp [sortByKey]
  | cons x xs ih => simp [sortByKey, mem_insertByKey, ih]

theorem variablesAttrs_no_indexError (r : Repo) (c : Class) (ov : Option Overrides) :
    ∀ attrs, (∀ a ∈ attrs, is_enumeration r a.type → enumHasLiterals r a) →
      variablesAttrs r c ov attrs ≠ .error .indexError := by
  intro attrs
  induction attrs with
  | nil => intro _ h; simp [variablesAttrs] at h
  | cons a rest ih =>
    intro hpre h
    have hprerest : ∀ b ∈ rest, is_enumeration r b.type → enumHasLiterals r b :=
      fun b hb => hpre b (List.mem_cons_of_mem _ hb)
    simp only [variablesAttrs] at h
    by_cases h1 : is_extension_end a
    · rw [if_pos h1] at h
      exact ih hprerest h
    · rw [if_neg h1] at h
      by_cases h2 : has_override ov (some (pyStr c.name ++ "." ++ pyStr a.name))
      · rw [if_pos h2] at h
        cases hrec : variablesAttrs r c ov rest with
        | error e =>
          rw [hrec] at h
          try dsimp only at h
          simp only [Except.error.injEq] at h
          exact ih hprerest (hrec.trans (congrArg Except.error h))
        | ok tl => rw [hrec] at h; try dsimp only at h; cases h
      · rw [if_neg h2] at h
        by_cases h3 : a.isDerived && a.type.isNone
        · rw [if_pos h3] at h
          exact ih hprerest h
        · rw [if_neg h3] at h
          by_cases h4 : truthyTV a.typeValue
          · rw [if_pos h4] at h
            cases hdv : default_value r a with
            | error e =>
              rw [hdv] at h
              try dsimp only at h
              simp only [Except.error.injEq] at h
              exact default_value_not_indexError r a (hdv.trans (congrArg Except.error h))
            | ok dv =>
              rw [hdv] at h
              try dsimp only at h
              cases hrec : variablesAttrs r c ov rest with
              | error e =>
                rw [hrec] at h
                try dsimp only at h
                simp only [Except.error.injEq] at h
                exact ih hprerest (hrec.trans (congrArg Except.error h))
              | ok tl => rw [hrec] at h; try dsimp only at h; cases h
          · rw [if_neg h4] at h
            by_cases h5 : is_enumeration r a.type
            · rw [if_pos h5] at h
              cases hbind : a.type.bind (getC r) with
              | none => rw [hbind] at h; try dsimp only at h; cases h
              | some t =>
                rw [hbind] at h
                try dsimp only at h
                have hne : t.ownedAttribute ≠ [] := by
                  have := hpre a (List.mem_cons_self _ _) h5
                  unfold enumHasLiterals at this
                  rw [hbind] at this
                  simpa [List.isEmpty_iff] using this
                cases hlit : t.ownedAttribute with
                | nil => exact hne hlit
                | cons l0 ls =>
                  rw [hlit] at h
                  simp only [List.getElem?_cons_zero] at h
                  try dsimp only at h
                  cases hrec : variablesAttrs r c ov rest with
                  | error e =>
                    rw [hrec] at h
                    try dsimp only at h
                    simp only [Except.error.injEq] at h
                    exact ih hprerest (hrec.trans (congrArg Except.error h))
                  | ok tl => rw [hrec] at h; try dsimp only at h; cases h
            · rw [if_neg h5] at h
              by_cases h6 : a.type.isSome
              · rw [if_pos h6] at h
                cases hrec : variablesAttrs r c ov rest with
                | error e =>
                  rw [hrec] at h
                  try dsimp only at h
                  simp only [Except.error.injEq] at h
                  exact ih hprerest (hrec.trans (congrArg Except.error h))
                | ok tl => rw [hrec] at h; try dsimp only at h; cases h
              · rw [if_neg h6] at h
                cases howner : a.owner.bind (getC r) with
                | some oc => rw [howner] at h; try dsimp only at h; cases h
                | none => rw [howner] at h; try dsimp only at h; cases h

/-- Claim C10: emitting an enumeration-typed attribute indexes the
enumeration's first owned literal, so on an enumeration with zero literals
`variables` fails with an out-of-bounds indexing error (outside the spec's
fatal-error taxonomy); under the precondition that every enumeration-typed
attribute's type has at least one literal, that branch never raises the
indexing error. -/
theorem C10_enum_first_literal :
    variablesF rEnumBad cEnumOwner none = .error .indexError ∧
      ∀ (r : Repo) (c : Class) (ov : Option Overrides),
        (∀ a ∈ c.ownedAttribute, is_enumeration r a.type → enumHasLiterals r a) →
        variablesF r c ov ≠ .error .indexError := by
  constructor
  · rfl
  · intro r c ov hpre h
    unfold variablesF at h
    cases hattrs : variablesAttrs r c ov (sortByKey (fun a => a.name.getD "") c.ownedAttribute) with
    | error e =>
      rw [hattrs] at h
      try dsimp only at h
      simp only [Except.error.injEq] at h
      refine variablesAttrs_no_indexError r c ov _ ?_ (hattrs.trans (congrArg Except.error h))
      intro a ha
      exact hpre a ((mem_sortByKey _ a _).mp ha)
    | ok tl => rw [hattrs] at h; try dsimp only at h; cases h

/-- Witness for C10's safety part: with one literal present, `variables`
does not raise the indexing error. -/
theorem C10_witness : variablesF rEnumGood cEnumOwner none ≠ .error .indexError :=
  C10_enum_first_literal.2 rEnumGood cEnumOwner none (by decide)

theorem has_override_none (name : Option String) : has_override none name = false := by
  cases name <;> rfl

theorem variablesOps_none (c : Class) :
    ∀ ops, variablesOps c none ops = [] := by
  intro ops
  induction ops with
  | nil => rfl
  | cons o rest ih =>
    simp only [variablesOps, has_override_none]
    simpa using ih

theorem eraseName_set (c : Class) (n : String) :
    eraseName { c with name := some n } = eraseName c := rfl

theorem setClassName_preserves (r : Repo) (i : Nat) (n : String) :
    (setClassName r i n).classes.length = r.classes.length ∧
      ∀ j : Nat, (r.classes[j]?).map eraseName = ((setClassName r i n).classes[j]?).map eraseName := by
  unfold setClassName
  cases hgc : getC r i with
  | none => exact ⟨rfl, fun j => rfl⟩
  | some c =>
    dsimp only
    refine ⟨List.length_set .., ?_⟩
    intro j
    by_cases hij : i = j
    · subst hij
      have hlt : i < r.classes.length := by
        unfold getC at hgc
        obtain ⟨hl, -⟩ := List.getElem?_eq_some_iff.mp hgc
        exact hl
      rw [List.getElem?_set_self hlt]
      unfold getC at hgc
      rw [hgc]
      rfl
    · rw [List.getElem?_set_ne hij]

theorem setClassName_packages (r : Repo) (i : Nat) (n : String) :
    (setClassName r i n).packages = r.packages := by
  unfold setClassName
  cases getC r i <;> rfl

theorem reposAgree_refl (r : Repo) : reposAgree r r := ⟨rfl, rfl, fun _ => rfl⟩

theorem reposAgree_trans {r1 r2 r3 : Repo} (a : reposAgree r1 r2)
    (b : reposAgree r2 r3) : reposAgree r1 r3 :=
  ⟨b.1.trans a.1, b.2.1.trans a.2.1, fun k => (a.2.2 k).trans (b.2.2 k)⟩

theorem setClassName_agree (r : Repo) (i : Nat) (n : String) :
    reposAgree r (setClassName r i n) :=
  ⟨setClassName_packages r i n, (setClassName_preserves r i n).1,
    (setClassName_preserves r i n).2⟩

theorem basesC_eraseName (c : Class) : basesC (eraseName c) = basesC c := rfl

theorem bases_agree {r rv : Repo} (h : reposAgree r rv) (j : Nat) :
    bases rv j = bases r j := by
  have hk := h.2.2 j
  unfold bases getC
  cases h1 : r.classes[j]? with
  | none =>
    rw [h1] at hk
    cases h2 : rv.classes[j]? with
    | none => rfl
    | some c2 => rw [h2] at hk; cases hk
  | some c =>
    rw [h1] at hk
    cases h2 : rv.classes[j]? with
    | none => rw [h2] at hk; cases hk
    | some c2 =>
      rw [h2] at hk
      simp only [Option.map_some', Option.some.injEq] at hk
      dsimp only
      calc basesC c2 = basesC (eraseName c2) := (basesC_eraseName c2).symm
        _ = basesC (eraseName c) := by rw [hk]
        _ = basesC c := basesC_eraseName c

theorem getC_setClassName_ne (r : Repo) (i j : Nat) (n : String) (hij : ¬i = j) :
    getC (setClassName r i n) j = getC r j := by
  unfold setClassName
  cases hgc : getC r i with
  | none => rfl
  | some c =>
    dsimp only
    unfold getC
    exact List.getElem?_set_ne hij

theorem getC_setClassName_self (r : Repo) (i : Nat) (c : Class) (n : String)
    (hgc : getC r i = some c) :
    getC (setClassName r i n) i = some { c with name := some n } := by
  unfold setClassName
  rw [hgc]
  dsimp only
  unfold getC
  unfold getC at hgc
  have hlt : i < r.classes.length := (List.getElem?_eq_some_iff.mp hgc).1
  rw [List.getElem?_set_self hlt]

theorem firstPass_preserves (sms : List SuperModel) (ov : Option Overrides)
    (allIds : List Nat) :
    ∀ ids r imported ls rf imp, firstPass sms ov allIds r ids imported = .ok (ls, rf, imp) →
      rf.classes.length = r.classes.length ∧
        ∀ j : Nat, (r.classes[j]?).map eraseName = (rf.classes[j]?).map eraseName := by
  intro ids
  induction ids with
  | nil =>
    intro r imported ls rf imp h
    simp only [firstPass, Except.ok.injEq, Prod.mk.injEq] at h
    obtain ⟨-, h2, -⟩ := h
    subst h2
    exact ⟨rfl, fun j => rfl⟩
  | cons i rest ih =>
    intro r imported ls rf imp h
    simp only [firstPass] at h
    cases hgc : getC r i with
    | none =>
      rw [hgc] at h
      exact ih r imported ls rf imp h
    | some c =>
      rw [hgc] at h
      dsimp only at h
      by_cases ho : has_override ov c.name
      · rw [if_pos ho] at h
        cases hrec : firstPass sms ov allIds r rest imported with
        | error e => rw [hrec] at h; cases h
        | ok triple =>
          obtain ⟨ls2, rf2, imp2⟩ := triple
          rw [hrec] at h
          dsimp only at h
          simp only [Except.ok.injEq, Prod.mk.injEq] at h
          obtain ⟨-, h2, -⟩ := h
          subst h2
          exact ih r imported ls2 rf2 imp2 hrec
      · rw [if_neg ho] at h
        cases hsm : (if (bases r i).isEmpty then in_super_model c.name sms
            else .ok none) with
        | error e => rw [hsm] at h; cases h
        | ok osm =>
          rw [hsm] at h
          cases osm with
          | none =>
            dsimp only at h
            cases hch : chunkFor r ov i c with
            | error e => rw [hch] at h; cases h
            | ok chunk =>
              rw [hch] at h
              dsimp only at h
              cases hrec : firstPass sms ov allIds r rest imported with
              | error e => rw [hrec] at h; cases h
              | ok triple =>
                obtain ⟨ls2, rf2, imp2⟩ := triple
                rw [hrec] at h
                dsimp only at h
                simp only [Except.ok.injEq, Prod.mk.injEq] at h
                obtain ⟨-, h2, -⟩ := h
                subst h2
                exact ih r imported ls2 rf2 imp2 hrec
          | some trip =>
            obtain ⟨et, cls, sr⟩ := trip
            dsimp only at h
            by_cases hdup :
                ((allIds.filterMap (getC r)).countP (fun t => t.name == c.name)) > 1
            · rw [if_pos hdup] at h
              cases hrec : firstPass sms ov allIds (setClassName r i ("_" ++ pyStr c.name))
                  rest
                  (("from " ++ et.module_ ++ " import " ++ et.name_ ++ " as _" ++
                    pyStr c.name) :: imported) with
              | error e => rw [hrec] at h; cases h
              | ok triple =>
                obtain ⟨ls2, rf2, imp2⟩ := triple
                rw [hrec] at h
                dsimp only at h
                simp only [Except.ok.injEq, Prod.mk.injEq] at h
                obtain ⟨-, h2, -⟩ := h
                subst h2
                obtain ⟨hlen1, hmap1⟩ := setClassName_preserves r i ("_" ++ pyStr c.name)
                obtain ⟨hlen2, hmap2⟩ := ih _ _ ls2 rf2 imp2 hrec
                exact ⟨hlen2.trans hlen1, fun j => (hmap1 j).trans (hmap2 j)⟩
            · rw [if_neg hdup] at h
              cases hrec : firstPass sms ov allIds r rest
                  (("from " ++ et.module_ ++ " import " ++ et.name_) :: imported) with
              | error e => rw [hrec] at h; cases h
              | ok triple =>
                obtain ⟨ls2, rf2, imp2⟩ := triple
                rw [hrec] at h
                dsimp only at h
                simp only [Except.ok.injEq, Prod.mk.injEq] at h
                obtain ⟨-, h2, -⟩ := h
                subst h2
                exact ih r _ ls2 rf2 imp2 hrec


theorem firstPass_packages (sms : List SuperModel) (ov : Option Overrides)
    (allIds : List Nat) :
    ∀ ids r imported ls rf imp, firstPass sms ov allIds r ids imported = .ok (ls, rf, imp) →
      rf.packages = r.packages := by
  intro ids
  induction ids with
  | nil =>
    intro r imported ls rf imp h
    simp only [firstPass, Except.ok.injEq, Prod.mk.injEq] at h
    obtain ⟨-, h2, -⟩ := h
    subst h2
    rfl
  | cons i rest ih =>
    intro r imported ls rf imp h
    simp only [firstPass] at h
    cases hgc : getC r i with
    | none =>
      rw [hgc] at h
      exact ih r imported ls rf imp h
    | some c =>
      rw [hgc] at h
      dsimp only at h
      by_cases ho : has_override ov c.name
      · rw [if_pos ho] at h
        cases hrec : firstPass sms ov allIds r rest imported with
        | error e => rw [hrec] at h; cases h
        | ok triple =>
          obtain ⟨ls2, rf2, imp2⟩ := triple
          rw [hrec] at h
          dsimp only at h
          simp only [Except.ok.injEq, Prod.mk.injEq] at h
          obtain ⟨-, h2, -⟩ := h
          subst h2
          exact ih r imported ls2 rf2 imp2 hrec
      · rw [if_neg ho] at h
        cases hsm : (if (bases r i).isEmpty then in_super_model c.name sms
            else .ok none) with
        | error e => rw [hsm] at h; cases h
        | ok osm =>
          rw [hsm] at h
          cases osm with
          | none =>
            dsimp only at h
            cases hch : chunkFor r ov i c with
            | error e => rw [hch] at h; cases h
            | ok chunk =>
              rw [hch] at h
              dsimp only at h
              cases hrec : firstPass sms ov allIds r rest imported with
              | error e => rw [hrec] at h; cases h
              | ok triple =>
                obtain ⟨ls2, rf2, imp2⟩ := triple
                rw [hrec] at h
                dsimp only at h
                simp only [Except.ok.injEq, Prod.mk.injEq] at h
                obtain ⟨-, h2, -⟩ := h
                subst h2
                exact ih r imported ls2 rf2 imp2 hrec
          | some trip =>
            obtain ⟨et, cls, sr⟩ := trip
            dsimp only at h
            by_cases hdup :
                ((allIds.filterMap (getC r)).countP (fun t => t.name == c.name)) > 1
            · rw [if_pos hdup] at h
              cases hrec : firstPass sms ov allIds (setClassName r i ("_" ++ pyStr c.name))
                  rest
                  (("from " ++ et.module_ ++ " import " ++ et.name_ ++ " as _" ++
                    pyStr c.name) :: imported) with
              | error e => rw [hrec] at h; cases h
              | ok triple =>
                obtain ⟨ls2, rf2, imp2⟩ := triple
                rw [hrec] at h
                dsimp only at h
                simp only [Except.ok.injEq, Prod.mk.injEq] at h
                obtain ⟨-, h2, -⟩ := h
                subst h2
                exact (ih _ _ ls2 rf2 imp2 hrec).trans (setClassName_packages r i _)
            · rw [if_neg hdup] at h
              cases hrec : firstPass sms ov allIds r rest
                  (("from " ++ et.module_ ++ " import " ++ et.name_) :: imported) with
              | error e => rw [hrec] at h; cases h
              | ok triple =>
                obtain ⟨ls2, rf2, imp2⟩ := triple
                rw [hrec] at h
                dsimp only at h
                simp only [Except.ok.injEq, Prod.mk.injEq] at h
                obtain ⟨-, h2, -⟩ := h
                subst h2
                exact ih r _ ls2 rf2 imp2 hrec

theorem firstPass_agree (sms : List SuperModel) (ov : Option Overrides)
    (allIds : List Nat) (ids : List Nat) (r : Repo) (imported ls : List String)
    (rf : Repo) (imp : List String)
    (h : firstPass sms ov allIds r ids imported = .ok (ls, rf, imp)) :
    reposAgree r rf :=
  ⟨firstPass_packages sms ov allIds ids r imported ls rf imp h,
    (firstPass_preserves sms ov allIds ids r imported ls rf imp h).1,
    (firstPass_preserves sms ov allIds ids r imported ls rf imp h).2⟩

theorem firstPass_name_change (sms : List SuperModel) (ov : Option Overrides)
    (allIds : List Nat) :
    ∀ ids r imported ls rf imp,
      firstPass sms ov allIds r ids imported = .ok (ls, rf, imp) →
      ∀ j c c', getC r j = some c → getC rf j = some c' →
        c'.name = c.name ∨
          (bases r j = [] ∧ ∃ rv cv et cls sr,
            reposAgree r rv ∧ getC rv j = some cv ∧
            in_super_model cv.name sms = .ok (some (et, cls, sr)) ∧
            1 < (allIds.filterMap (getC rv)).countP (fun t => t.name == cv.name) ∧
            c'.name = some ("_" ++ pyStr cv.name)) := by
  intro ids
  induction ids with
  | nil =>
    intro r imported ls rf imp h j c c' hc hc'
    simp only [firstPass, Except.ok.injEq, Prod.mk.injEq] at h
    obtain ⟨-, h2, -⟩ := h
    subst h2
    rw [hc] at hc'
    injection hc' with hcc
    exact Or.inl (by rw [hcc])
  | cons i rest ih =>
    intro r imported ls rf imp h j c c' hc hc'
    simp only [firstPass] at h
    cases hgc : getC r i with
    | none =>
      rw [hgc] at h
      exact ih r imported ls rf imp h j c c' hc hc'
    | some c0 =>
      rw [hgc] at h
      dsimp only at h
      by_cases ho : has_override ov c0.name
      · rw [if_pos ho] at h
        cases hrec : firstPass sms ov allIds r rest imported with
        | error e => rw [hrec] at h; cases h
        | ok triple =>
          obtain ⟨ls2, rf2, imp2⟩ := triple
          rw [hrec] at h
          dsimp only at h
          simp only [Except.ok.injEq, Prod.mk.injEq] at h
          obtain ⟨-, h2, -⟩ := h
          subst h2
          exact ih r imported ls2 rf2 imp2 hrec j c c' hc hc'
      · rw [if_neg ho] at h
        by_cases hbe : (bases r i).isEmpty
        · rw [if_pos hbe] at h
          have hbnil : bases r i = [] := by
            cases hb : bases r i with
            | nil => rfl
            | cons a l => rw [hb] at hbe; simp at hbe
          cases hsm : in_super_model c0.name sms with
          | error e => rw [hsm] at h; cases h
          | ok osm =>
            rw [hsm] at h
            cases osm with
            | none =>
              dsimp only at h
              cases hch : chunkFor r ov i c0 with
              | error e => rw [hch] at h; cases h
              | ok chunk =>
                rw [hch] at h
                dsimp only at h
                cases hrec : firstPass sms ov allIds r rest imported with
                | error e => rw [hrec] at h; cases h
                | ok triple =>
                  obtain ⟨ls2, rf2, imp2⟩ := triple
                  rw [hrec] at h
                  dsimp only at h
                  simp only [Except.ok.injEq, Prod.mk.injEq] at h
                  obtain ⟨-, h2, -⟩ := h
                  subst h2
                  exact ih r imported ls2 rf2 imp2 hrec j c c' hc hc'
            | some trip =>
              obtain ⟨et, cls, sr⟩ := trip
              dsimp only at h
              by_cases hdup :
                  ((allIds.filterMap (getC r)).countP (fun t => t.name == c0.name)) > 1
              · rw [if_pos hdup] at h
                cases hrec : firstPass sms ov allIds
                    (setClassName r i ("_" ++ pyStr c0.name)) rest
                    (("from " ++ et.module_ ++ " import " ++ et.name_ ++ " as _" ++
                      pyStr c0.name) :: imported) with
                | error e => rw [hrec] at h; cases h
                | ok triple =>
                  obtain ⟨ls2, rf2, imp2⟩ := triple
                  rw [hrec] at h
                  dsimp only at h
                  simp only [Except.ok.injEq, Prod.mk.injEq] at h
                  obtain ⟨-, h2, -⟩ := h
                  subst h2
                  by_cases hij : i = j
                  · subst hij
                    rw [hgc] at hc
                    injection hc with hcc
                    have hmid := getC_setClassName_self r i c0 ("_" ++ pyStr c0.name) hgc
                    rcases ih _ _ ls2 rf2 imp2 hrec i _ c' hmid hc' with hname | hD
                    · refine Or.inr ⟨hbnil, r, c0, et, cls, sr, reposAgree_refl r, hgc,
                        hsm, hdup, hname⟩
                    · obtain ⟨hb', rv, cv, et2, cls2, sr2, hag, hgv, hsm2, hcnt, hnm⟩ := hD
                      exact Or.inr ⟨hbnil, rv, cv, et2, cls2, sr2,
                        reposAgree_trans (setClassName_agree r i _) hag, hgv, hsm2, hcnt,
                        hnm⟩
                  · have hmid : getC (setClassName r i ("_" ++ pyStr c0.name)) j = getC r j :=
                      getC_setClassName_ne r i j _ hij
                    rcases ih _ _ ls2 rf2 imp2 hrec j c c' (by rw [hmid]; exact hc) hc' with
                        hname | hD
                    · exact Or.inl hname
                    · obtain ⟨hb', rv, cv, et2, cls2, sr2, hag, hgv, hsm2, hcnt, hnm⟩ := hD
                      refine Or.inr ⟨?_, rv, cv, et2, cls2, sr2,
                        reposAgree_trans (setClassName_agree r i _) hag, hgv, hsm2, hcnt,
                        hnm⟩
                      rw [← bases_agree (setClassName_agree r i ("_" ++ pyStr c0.name)) j]
                      exact hb'
              · rw [if_neg hdup] at h
                cases hrec : firstPass sms ov allIds r rest
                    (("from " ++ et.module_ ++ " import " ++ et.name_) :: imported) with
                | error e => rw [hrec] at h; cases h
                | ok triple =>
                  obtain ⟨ls2, rf2, imp2⟩ := triple
                  rw [hrec] at h
                  dsimp only at h
                  simp only [Except.ok.injEq, Prod.mk.injEq] at h
                  obtain ⟨-, h2, -⟩ := h
                  subst h2
                  exact ih r _ ls2 rf2 imp2 hrec j c c' hc hc'
        · rw [if_neg hbe] at h
          dsimp only at h
          cases hch : chunkFor r ov i c0 with
          | error e => rw [hch] at h; cases h
          | ok chunk =>
            rw [hch] at h
            dsimp only at h
            cases hrec : firstPass sms ov allIds r rest imported with
            | error e => rw [hrec] at h; cases h
            | ok triple =>
              obtain ⟨ls2, rf2, imp2⟩ := triple
              rw [hrec] at h
              dsimp only at h
              simp only [Except.ok.injEq, Prod.mk.injEq] at h
              obtain ⟨-, h2, -⟩ := h
              subst h2
              exact ih r imported ls2 rf2 imp2 hrec j c c' hc hc'

theorem in_super_model_nil (name : Option String) :
    in_super_model name [] = .ok none := rfl

theorem firstPass_nil_sms (ov : Option Overrides) (allIds : List Nat) :
    ∀ ids r imported ls rf imp, firstPass [] ov allIds r ids imported = .ok (ls, rf, imp) →
      rf = r := by
  intro ids
  induction ids with
  | nil =>
    intro r imported ls rf imp h
    simp only [firstPass, Except.ok.injEq, Prod.mk.injEq] at h
    exact h.2.1.symm
  | cons i rest ih =>
    intro r imported ls rf imp h
    simp only [firstPass] at h
    cases hgc : getC r i with
    | none =>
      rw [hgc] at h
      exact ih r imported ls rf imp h
    | some c =>
      rw [hgc] at h
      dsimp only at h
      by_cases ho : has_override ov c.name
      · rw [if_pos ho] at h
        cases hrec : firstPass [] ov allIds r rest imported with
        | error e => rw [hrec] at h; cases h
        | ok triple =>
          obtain ⟨ls2, rf2, imp2⟩ := triple
          rw [hrec] at h
          dsimp only at h
          simp only [Except.ok.injEq, Prod.mk.injEq] at h
          obtain ⟨-, h2, -⟩ := h
          subst h2
          exact ih r imported ls2 rf2 imp2 hrec
      · rw [if_neg ho] at h
        rw [in_super_model_nil, ite_self] at h
        dsimp only at h
        cases hch : chunkFor r ov i c with
        | error e => rw [hch] at h; cases h
        | ok chunk =>
          rw [hch] at h
          dsimp only at h
          cases hrec : firstPass [] ov allIds r rest imported with
          | error e => rw [hrec] at h; cases h
          | ok triple =>
            obtain ⟨ls2, rf2, imp2⟩ := triple
            rw [hrec] at h
            dsimp only at h
            simp only [Except.ok.injEq, Prod.mk.injEq] at h
            obtain ⟨-, h2, -⟩ := h
            subst h2
            exact ih r imported ls2 rf2 imp2 hrec

theorem firstPass_chunks (allIds : List Nat) :
    ∀ ids r imported ls rf imp, firstPass [] none allIds r ids imported = .ok (ls, rf, imp) →
      ∀ i ∈ ids, ∀ c, getC r i = some c →
        ∃ chunk, chunkFor r none i c = .ok chunk ∧ ∃ p q, ls = p ++ chunk ++ q := by
  intro ids
  induction ids with
  | nil =>
    intro r imported ls rf imp h i hi
    cases hi
  | cons i0 rest ih =>
    intro r imported ls rf imp h i hi c hc
    simp only [firstPass] at h
    cases hgc : getC r i0 with
    | none =>
      rw [hgc] at h
      rcases List.mem_cons.mp hi with hi0 | hirest
      · subst hi0
        rw [hgc] at hc
        cases hc
      · exact ih r imported ls rf imp h i hirest c hc
    | some c0 =>
      rw [hgc] at h
      dsimp only at h
      rw [if_neg (by rw [has_override_none]; exact Bool.false_ne_true)] at h
      rw [in_super_model_nil, ite_self] at h
      dsimp only at h
      cases hch : chunkFor r none i0 c0 with
      | error e => rw [hch] at h; cases h
      | ok chunk0 =>
        rw [hch] at h
        dsimp only at h
        cases hrec : firstPass [] none allIds r rest imported with
        | error e => rw [hrec] at h; cases h
        | ok triple =>
          obtain ⟨ls2, rf2, imp2⟩ := triple
          rw [hrec] at h
          dsimp only at h
          simp only [Except.ok.injEq, Prod.mk.injEq] at h
          obtain ⟨hls, -, -⟩ := h
          rcases List.mem_cons.mp hi with hi0 | hirest
          · subst hi0
            rw [hgc] at hc
            injection hc with hcc
            subst hcc
            exact ⟨chunk0, hch, [], ls2, by rw [← hls]; simp⟩
          · obtain ⟨chunk, hchunk, p, q, hpq⟩ := ih r imported ls2 rf2 imp2 hrec i hirest c hc
            exact ⟨chunk, hchunk, chunk0 ++ p, q, by rw [← hls, hpq]; simp⟩

/-- Claim C4, amended: after normalization, the only mutation emission
performs on the repository is class renaming — the packages and every class
field but the name are unchanged — and a name changes only by gaining an
underscore prefix, only for a class with no bases whose then-current name
resolves to a super-model import while it is shared by more than one of the
ordered classes (counted in the then-current repository, which agrees with
the input up to such renames); with no super models the repository is
returned entirely unchanged. -/
theorem C4_coder_mutates_only_names (r : Repo) (sms : List SuperModel)
    (ov : Option Overrides) (cands : List Nat) (lines : List String) (r2 : Repo)
    (hcands : candidates r = .ok cands)
    (h : coder r sms ov = .ok (lines, r2)) :
    reposAgree r r2 ∧
      (∀ j c c', getC r j = some c → getC r2 j = some c' →
        c'.name = c.name ∨
          (bases r j = [] ∧ ∃ rv cv et cls sr,
            reposAgree r rv ∧ getC rv j = some cv ∧
            in_super_model cv.name sms = .ok (some (et, cls, sr)) ∧
            1 < ((order_classes r (classFuel r) cands).filterMap (getC rv)).countP
              (fun t => t.name == cv.name) ∧
            c'.name = some ("_" ++ pyStr cv.name))) ∧
      (sms = [] → r2 = r) := by
  unfold coder at h
  rw [hcands] at h
  dsimp only at h
  cases hfp : firstPass sms ov (order_classes r (classFuel r) cands) r
      (order_classes r (classFuel r) cands) [] with
  | error e => rw [hfp] at h; cases h
  | ok triple =>
    obtain ⟨fp, rmid, imported⟩ := triple
    rw [hfp] at h
    dsimp only at h
    cases hsp : secondPass sms ov rmid (order_classes r (classFuel r) cands) imported
        with
    | error e => rw [hsp] at h; cases h
    | ok sp =>
      rw [hsp] at h
      dsimp only at h
      simp only [Except.ok.injEq, Prod.mk.injEq] at h
      obtain ⟨-, h2⟩ := h
      subst h2
      refine ⟨firstPass_agree sms ov _ _ r [] fp rmid imported hfp, ?_, ?_⟩
      · exact firstPass_name_change sms ov _ _ r [] fp rmid imported hfp
      · intro hnil
        subst hnil
        exact firstPass_nil_sms ov _ _ r [] fp rmid imported hfp

/-- Claim C8: when the candidate filter succeeds, for a candidate class with
no own attributes and no bases (and no override or super-model import for
it), the coder output contains its class declaration immediately followed by
the explicit `    pass` body marker. -/
theorem C8_empty_body_marker (r : Repo) (cands : List Nat) (i : Nat) (c : Class)
    (lines : List String) (r2 : Repo) (hcands : candidates r = .ok cands)
    (hgc : getC r i = some c) (hattrs : c.ownedAttribute = [])
    (hcand : i ∈ cands) (h : coder r [] none = .ok (lines, r2)) :
    ∃ p q, lines = p ++ class_declaration r i :: "    pass" :: q := by
  unfold coder at h
  rw [hcands] at h
  dsimp only at h
  cases hfp : firstPass [] none (order_classes r (classFuel r) cands) r
      (order_classes r (classFuel r) cands) [] with
  | error e => rw [hfp] at h; cases h
  | ok triple =>
    obtain ⟨fp, rmid, imported⟩ := triple
    rw [hfp] at h
    dsimp only at h
    cases hsp : secondPass [] none rmid (order_classes r (classFuel r) cands) imported
        with
    | error e => rw [hsp] at h; cases h
    | ok sp =>
      rw [hsp] at h
      dsimp only at h
      simp only [Except.ok.injEq, Prod.mk.injEq] at h
      obtain ⟨hlines, -⟩ := h
      have hmem : i ∈ order_classes r (classFuel r) cands :=
        order_classes_mem (by unfold classFuel; omega) _ i hcand
      obtain ⟨chunk, hchunk, p, q, hpq⟩ :=
        firstPass_chunks _ _ r [] fp rmid imported hfp i hmem c hgc
      have hvf : variablesF r c none = .ok [] := by
        unfold variablesF
        rw [hattrs]
        dsimp only [sortByKey, variablesAttrs]
        rw [variablesOps_none]
        rfl
      have hck : chunkFor r none i c = .ok [class_declaration r i, "    pass", "", ""] := by
        unfold chunkFor
        rw [hvf]
        dsimp only
        rw [if_pos rfl]
        rfl
      rw [hchunk] at hck
      simp only [Except.ok.injEq] at hck
      subst hck
      refine ⟨headerStr :: p,
        "" :: "" :: (q ++ operationsPass rmid none
          (order_classes r (classFuel r) cands) ++ [""] ++ sp), ?_⟩
      rw [← hlines, hpq]
      simp

/-- Claim C9: when the candidate filter succeeds, the class sequence produced
for emission is the closure of the filtered candidate set under the bases
relation — every class transitively reachable as a base of a candidate occurs
in the ordered sequence even if it fails the candidate filter itself — and
(with no overrides or super models) the coder emits a class declaration for
each such reachable class. -/
theorem C9_closure_declared (r : Repo) (cands : List Nat) (rank : Nat → Nat)
    (hcands : candidates r = .ok cands)
    (hrank : ∀ c b, b ∈ bases r c → rank b < rank c)
    (hfuel : ∀ c ∈ cands, rank c < classFuel r) :
    (∀ c ∈ cands, ∀ b, Reaches r c b →
        b ∈ order_classes r (classFuel r) cands) ∧
      ∀ lines r2, coder r [] none = .ok (lines, r2) →
        ∀ c ∈ cands, ∀ b, Reaches r c b → ∀ cb, getC r b = some cb →
          class_declaration r b ∈ lines := by
  constructor
  · exact order_classes_closure hrank hfuel
  · intro lines r2 h c hc b hreach cb hcb
    have hmem : b ∈ order_classes r (classFuel r) cands :=
      order_classes_closure hrank hfuel c hc b hreach
    unfold coder at h
    rw [hcands] at h
    dsimp only at h
    cases hfp : firstPass [] none (order_classes r (classFuel r) cands) r
        (order_classes r (classFuel r) cands) [] with
    | error e => rw [hfp] at h; cases h
    | ok triple =>
      obtain ⟨fp, rmid, imported⟩ := triple
      rw [hfp] at h
      dsimp only at h
      cases hsp : secondPass [] none rmid (order_classes r (classFuel r) cands) imported
          with
      | error e => rw [hsp] at h; cases h
      | ok sp =>
        rw [hsp] at h
        dsimp only at h
        simp only [Except.ok.injEq, Prod.mk.injEq] at h
        obtain ⟨hlines, -⟩ := h
        obtain ⟨chunk, hchunk, p, q, hpq⟩ :=
          firstPass_chunks _ _ r [] fp rmid imported hfp b hmem cb hcb
        have hhead : ∃ restc, chunk = class_declaration r b :: restc := by
          unfold chunkFor at hchunk
          cases hv : variablesF r cb none with
          | error e => rw [hv] at hchunk; cases hchunk
          | ok props =>
            rw [hv] at hchunk
            dsimp only at hchunk
            simp only [Except.ok.injEq] at hchunk
            exact ⟨_, hchunk.symm⟩
        obtain ⟨restc, hrest⟩ := hhead
        rw [← hlines, hpq, hrest]
        simp

/-- In the filter model every base has a smaller rank under `1 - i`. -/
theorem rFilter_hrank : ∀ c b, b ∈ bases rFilter c → 1 - b < 1 - c := by
  intro c b hb
  match c with
  | 0 =>
    rw [show bases rFilter 0 = [1] by decide] at hb
    simp at hb; omega
  | 1 => rw [show bases rFilter 1 = [] by decide] at hb; cases hb
  | n + 2 =>
    rw [bases_out_of_range (by simp [rFilter])] at hb
    cases hb

/-- Counterexample to claim C4 as stated: with a super model declaring `X`
and two local classes named `X`, emission renames the first class to `_X`, so
a class-name field changes during emission. -/
theorem C4_counterexample :
    rDup.classes.map (fun c => c.name) = [some "X", some "X"] ∧
      (coder rDup [smX] none).map (fun p => p.2.classes.map (fun c => c.name)) =
        .ok [some "_X", some "X"] :=
  ⟨rfl, rfl⟩

/-- Witness for the amended C4 on the duplicate-name model with one super
model: the renamed repository agrees with the input up to class names, every
name change satisfies the rename conditions, and the no-super-model clause
holds vacuously. -/
theorem C4_witness :
    candidates rDup = .ok [0, 1] ∧
      ∃ lines r2, coder rDup [smX] none = .ok (lines, r2) ∧
        (reposAgree rDup r2 ∧
          (∀ j c c', getC rDup j = some c → getC r2 j = some c' →
            c'.name = c.name ∨
              (bases rDup j = [] ∧ ∃ rv cv et cls sr,
                reposAgree rDup rv ∧ getC rv j = some cv ∧
                in_super_model cv.name [smX] = .ok (some (et, cls, sr)) ∧
                1 < ((order_classes rDup (classFuel rDup) [0, 1]).filterMap
                    (getC rv)).countP (fun t => t.name == cv.name) ∧
                c'.name = some ("_" ++ pyStr cv.name))) ∧
          ([smX] = [] → r2 = rDup)) :=
  ⟨rfl, _, _, rfl, C4_coder_mutates_only_names rDup [smX] none [0, 1] _ _ rfl rfl⟩

/-- Witness for C8: the attribute-less, base-less class `A` is declared with
an explicit `    pass` body. -/
theorem C8_witness :
    ∃ p q, ([headerStr, "class A():", "    pass", "", "", ""] : List String) =
      p ++ class_declaration rOneA 0 :: "    pass" :: q :=
  C8_empty_body_marker rOneA [0] 0
    { emptyClass with name := some "A", owningPackage := some 0 }
    [headerStr, "class A():", "    pass", "", "", ""] rOneA rfl rfl rfl (by decide) rfl

/-- Witness for C9: the enumeration `BKind`, reachable as a base of candidate
`Main` but excluded from the candidate filter, is still emitted as a class
declaration. -/
theorem C9_witness :
    class_declaration rFilter 1 ∈ ([headerStr, "class BKind():", "    pass", "", "",
      "class Main(BKind):", "    pass", "", "", ""] : List String) :=
  (C9_closure_declared rFilter [0] (fun i => 1 - i) rfl rFilter_hrank (by decide)).2
    [headerStr, "class BKind():", "    pass", "", "", "class Main(BKind):", "    pass",
      "", "", ""] rFilter rfl 0 (by decide) 1
    (Relation.ReflTransGen.tail Relation.ReflTransGen.refl
      (show (1 : Nat) ∈ bases rFilter 0 by decide))
    { emptyClass with name := some "BKind", owningPackage := some 0 } rfl

end Coder
